import Mathlib

/-!
Verification of the invoice-extraction pipeline
(`invoiceextract.py`, `invoice_langsmith.py`, `invoice_langsmith_v1.py`).

Python strings are modelled as `List Char`.  The pipeline's use of the
Python `json` module (`json.loads` on the model text, `json.dumps` on a
result) is modelled by an executable JSON value type `JVal` with a
parser `loads` and a serializer `dumpV`.  JSON numbers are modelled as
exact decimals (`jint` for integers, `jfloat m e` for the value
`m * 10 ^ e` as produced by float literals); this abstracts IEEE-754
floats by exact decimal arithmetic, so the special float tokens
`NaN` and `Infinity` and float rounding are outside the model.
A `\u` escape denoting a lone surrogate is likewise outside the model
(Lean `Char` carries only Unicode scalar values); the serializer is the
`ensure_ascii=False` form the repository itself uses, which never emits
such escapes.
-/

/-- Characters of a Lean string literal, used to write Python `str` values. -/
def strL (s : String) : List Char := s.data

/-- Whitespace recognised by Python `str.strip()` (ASCII range). -/
def pyWs (c : Char) : Bool :=
  c = ' ' || c = '\t' || c = '\n' || c = '\r' || c = '\x0b' || c = '\x0c'

/-- Python `str.strip()`: drop leading and trailing whitespace. -/
def pyStrip (l : List Char) : List Char :=
  ((l.dropWhile pyWs).reverse.dropWhile pyWs).reverse

/-- Python `sep.join(parts)`. -/
def pyJoin (sep : List Char) : List (List Char) → List Char
  | [] => []
  | [x] => x
  | x :: y :: rest => x ++ sep ++ pyJoin sep (y :: rest)

/-- JSON values as produced by `json.loads` (see the module comment for
the treatment of numbers).  Objects are insertion-ordered key/value
lists, exactly the order of a Python `dict`. -/
inductive JVal where
  | null
  | bool (b : Bool)
  | jint (n : Int)
  | jfloat (m : Int) (e : Int)
  | str (s : List Char)
  | arr (xs : List JVal)
  | obj (kvs : List (List Char × JVal))

instance : Inhabited JVal := ⟨JVal.null⟩

/-- Whitespace skipped by the JSON grammar (`json.decoder`). -/
def jsonWs (c : Char) : Bool := c = ' ' || c = '\t' || c = '\n' || c = '\r'

/-- Skip JSON whitespace. -/
def skipWs (l : List Char) : List Char := l.dropWhile jsonWs

/-- Numeric value of a decimal digit character. -/
def charVal (c : Char) : Nat := c.toNat - 48

/-- The decimal digit character for `d < 10`. -/
def digitChar (d : Nat) : Char := Char.ofNat (48 + d)

/-- Decimal digits of `n`, most significant first, as printed by Python. -/
def natToChars (n : Nat) : List Char :=
  if n = 0 then ['0'] else (Nat.digits 10 n).reverse.map digitChar

/-- Value of a most-significant-first digit list. -/
def hornerN (ds : List Nat) : Nat := ds.foldl (fun a d => a * 10 + d) 0

/-- Value of a hexadecimal digit character, or `16` if it is not one. -/
def hexVal (c : Char) : Nat :=
  if '0' ≤ c ∧ c ≤ '9' then c.toNat - 48
  else if 'a' ≤ c ∧ c ≤ 'f' then c.toNat - 87
  else if 'A' ≤ c ∧ c ≤ 'F' then c.toNat - 55
  else 16

/-- Is `c` a hexadecimal digit? -/
def hexOk (c : Char) : Bool := hexVal c < 16

/-- Value of four hexadecimal digit characters. -/
def hx4 (a b c d : Char) : Nat :=
  hexVal a * 4096 + hexVal b * 256 + hexVal c * 16 + hexVal d

/-- Apply a sign flag to a natural number. -/
def intOfSign (neg : Bool) (n : Nat) : Int := if neg then -(n : Int) else (n : Int)

/-- Dict insertion as performed while a JSON object literal is read:
a repeated key keeps its first position but takes the new value
(Python `dict` semantics, last duplicate wins). -/
def insKV : List (List Char × JVal) → List Char → JVal → List (List Char × JVal)
  | [], k, v => [(k, v)]
  | (k', v') :: t, k, v =>
    if k' = k then (k', v) :: t else (k', v') :: insKV t k v

/-- Strip trailing zero digits from a most-significant-first digit list,
returning the stripped list and how many zeros were dropped. -/
def stripZeros (ds : List Nat) : List Nat × Nat :=
  let rz := ds.reverse.dropWhile (fun d => d = 0)
  (rz.reverse, ds.length - rz.length)

/-- Build the normalised float value from a sign, the mantissa digits
(integer digits followed by fraction digits, most significant first) and
the decimal exponent.  Mirrors the collapse of equal Python floats:
the mantissa never ends in zero, and zero is `0 * 10 ^ 0`. -/
def normNum (neg : Bool) (ds : List Nat) (e : Int) : JVal :=
  let p := stripZeros ds
  if p.1 = [] then JVal.jfloat 0 0
  else JVal.jfloat (intOfSign neg (hornerN p.1)) (e + p.2)

/-- Parse the optional fraction part `.digits` of a JSON number. -/
def pFracPart (s : List Char) : Option (Option (List Char) × List Char) :=
  match s with
  | c :: r =>
    if c = '.' then
      let fds := r.takeWhile Char.isDigit
      if fds = [] then none else some (some fds, r.dropWhile Char.isDigit)
    else some (none, s)
  | [] => some (none, [])

/-- Parse the digits (with optional sign) of a JSON exponent part. -/
def pExpDigits (r : List Char) : Option (Option Int × List Char) :=
  let q := match r with
    | '+' :: rr => ((1 : Int), rr)
    | '-' :: rr => ((-1 : Int), rr)
    | _ => ((1 : Int), r)
  let eds := q.2.takeWhile Char.isDigit
  if eds = [] then none
  else some (some (q.1 * (hornerN (eds.map charVal) : Int)), q.2.dropWhile Char.isDigit)

/-- Parse the optional exponent part `e[+-]digits` of a JSON number. -/
def pExpPart (s : List Char) : Option (Option Int × List Char) :=
  match s with
  | c :: r => if c = 'e' ∨ c = 'E' then pExpDigits r else some (none, s)
  | [] => some (none, [])

/-- Parse a JSON number (the `NUMBER_RE` step of `json.decoder`):
optional `-`, an integer part with no leading zero, then optional
fraction and exponent.  Plain integers yield `jint`; a fraction or an
exponent yields a float, modelled by `normNum`. -/
def pNum (s : List Char) : Option (JVal × List Char) := do
  let q : Bool × List Char := match s with
    | c :: r => if c = '-' then (true, r) else (false, s)
    | [] => (false, [])
  let ids := q.2.takeWhile Char.isDigit
  let r1 := q.2.dropWhile Char.isDigit
  if ids = [] then none
  else if 1 < ids.length ∧ ids.headD 'x' = '0' then none
  else do
    let fr ← pFracPart r1
    let ex ← pExpPart fr.2
    match fr.1, ex.1 with
    | none, none => some (JVal.jint (intOfSign q.1 (hornerN (ids.map charVal))), ex.2)
    | _, _ =>
      let fds := fr.1.getD []
      some (normNum q.1 ((ids ++ fds).map charVal) (ex.1.getD 0 - fds.length), ex.2)

mutual

/-- Parse the body of a JSON string after the opening quote
(`json.decoder.py_scanstring`): raw characters up to the closing quote,
escapes handled by `pEsc`; unescaped control characters are refused
(the default `strict=True`). -/
def pStr : List Char → Option (List Char × List Char)
  | [] => none
  | c :: cs =>
    if c = '"' then some ([], cs)
    else if c = '\\' then pEsc cs
    else if c.toNat < 32 then none
    else (pStr cs).map (fun p => (c :: p.1, p.2))

/-- Parse one escape sequence after a backslash and the rest of the
string body. -/
def pEsc : List Char → Option (List Char × List Char)
  | [] => none
  | e :: r =>
    if e = '"' then (pStr r).map (fun p => ('"' :: p.1, p.2))
    else if e = '\\' then (pStr r).map (fun p => ('\\' :: p.1, p.2))
    else if e = '/' then (pStr r).map (fun p => ('/' :: p.1, p.2))
    else if e = 'b' then (pStr r).map (fun p => ('\x08' :: p.1, p.2))
    else if e = 'f' then (pStr r).map (fun p => ('\x0c' :: p.1, p.2))
    else if e = 'n' then (pStr r).map (fun p => ('\n' :: p.1, p.2))
    else if e = 'r' then (pStr r).map (fun p => ('\r' :: p.1, p.2))
    else if e = 't' then (pStr r).map (fun p => ('\t' :: p.1, p.2))
    else if e = 'u' then pU r
    else none

/-- Parse the four hex digits of a `\u` escape and the rest of the
string body.  A high surrogate must be followed by a low surrogate
escape, handled by `pSur`; a lone low surrogate is refused (model
boundary, see the module comment). -/
def pU : List Char → Option (List Char × List Char)
  | a :: b :: c :: d :: r2 =>
    if hexOk a && hexOk b && hexOk c && hexOk d then
      if hx4 a b c d < 0xD800 ∨ 0xE000 ≤ hx4 a b c d then
        (pStr r2).map (fun p => (Char.ofNat (hx4 a b c d) :: p.1, p.2))
      else if hx4 a b c d < 0xDC00 then pSur (hx4 a b c d) r2
      else none
    else none
  | _ => none

/-- Parse the low-surrogate escape that must follow a high surrogate
`\u` escape, combining the pair into one scalar value. -/
def pSur (n : Nat) : List Char → Option (List Char × List Char)
  | s1 :: s2 :: a2 :: b2 :: c2 :: d2 :: r3 =>
    if s1 = '\\' && s2 = 'u' && hexOk a2 && hexOk b2 && hexOk c2 && hexOk d2
        && decide (0xDC00 ≤ hx4 a2 b2 c2 d2) && decide (hx4 a2 b2 c2 d2 < 0xE000) then
      (pStr r3).map (fun p =>
        (Char.ofNat (0x10000 + (n - 0xD800) * 1024 + (hx4 a2 b2 c2 d2 - 0xDC00)) :: p.1, p.2))
    else none
  | _ => none

end

mutual

/-- Parse one JSON value (`json.scanner.py_make_scanner`): dispatch on
the first character to a literal, a string, an array, an object or a
number.  The fuel argument bounds recursion depth; `loads` passes four
times the input length plus four, which always suffices because every
four units of fuel spent consume at least one input character. -/
def pVal : Nat → List Char → Option (JVal × List Char)
  | 0, _ => none
  | _ + 1, [] => none
  | f + 1, c :: cs =>
    if c = 'n' then
      match cs with
      | 'u' :: 'l' :: 'l' :: r => some (JVal.null, r)
      | _ => none
    else if c = 't' then
      match cs with
      | 'r' :: 'u' :: 'e' :: r => some (JVal.bool true, r)
      | _ => none
    else if c = 'f' then
      match cs with
      | 'a' :: 'l' :: 's' :: 'e' :: r => some (JVal.bool false, r)
      | _ => none
    else if c = '"' then (pStr cs).map (fun p => (JVal.str p.1, p.2))
    else if c = '[' then pArr0 f (skipWs cs)
    else if c = '\x7b' then pObj0 f (skipWs cs)
    else pNum (c :: cs)

/-- Start of an array body: an immediate closing bracket is the empty
array, anything else is a nonempty element list. -/
def pArr0 : Nat → List Char → Option (JVal × List Char)
  | 0, _ => none
  | f + 1, c :: r2 =>
    if c = ']' then some (JVal.arr [], r2)
    else (pElems f (c :: r2)).map (fun p => (JVal.arr p.1, p.2))
  | f + 1, [] => (pElems f []).map (fun p => (JVal.arr p.1, p.2))

/-- Start of an object body: an immediate closing brace is the empty
object, anything else is a nonempty member list, folded through
`insKV` as a Python dict is built. -/
def pObj0 : Nat → List Char → Option (JVal × List Char)
  | 0, _ => none
  | f + 1, c :: r2 =>
    if c = '\x7d' then some (JVal.obj [], r2)
    else
      (pMembers f (c :: r2)).map (fun p =>
        (JVal.obj (p.1.foldl (fun acc kv => insKV acc kv.1 kv.2) []), p.2))
  | f + 1, [] =>
    (pMembers f []).map (fun p =>
      (JVal.obj (p.1.foldl (fun acc kv => insKV acc kv.1 kv.2) []), p.2))

/-- Parse the comma-separated elements of a non-empty JSON array,
consuming the closing bracket. -/
def pElems : Nat → List Char → Option (List JVal × List Char)
  | 0, _ => none
  | f + 1, s => (pVal f s).bind (fun p => pElemsTail f p.1 (skipWs p.2))

/-- After one array element: a comma continues the list, a closing
bracket ends it. -/
def pElemsTail : Nat → JVal → List Char → Option (List JVal × List Char)
  | 0, _, _ => none
  | f + 1, v, c :: r2 =>
    if c = ',' then (pElems f (skipWs r2)).bind (fun q => some (v :: q.1, q.2))
    else if c = ']' then some ([v], r2)
    else none
  | _ + 1, _, [] => none

/-- Parse the comma-separated members of a non-empty JSON object,
consuming the closing brace.  Members are returned in source order. -/
def pMembers : Nat → List Char → Option (List (List Char × JVal) × List Char)
  | 0, _ => none
  | f + 1, c :: r =>
    if c = '"' then (pStr r).bind (fun kp => pMemberColon f kp.1 (skipWs kp.2))
    else none
  | _ + 1, [] => none

/-- After a member key: a colon introduces the value. -/
def pMemberColon : Nat → List Char → List Char →
    Option (List (List Char × JVal) × List Char)
  | 0, _, _ => none
  | f + 1, k, c :: r2 =>
    if c = ':' then
      (pVal f (skipWs r2)).bind (fun vp => pMembersTail f k vp.1 (skipWs vp.2))
    else none
  | _ + 1, _, [] => none

/-- After one object member: a comma continues the list, a closing
brace ends it. -/
def pMembersTail : Nat → List Char → JVal → List Char →
    Option (List (List Char × JVal) × List Char)
  | 0, _, _, _ => none
  | f + 1, k, v, c :: r4 =>
    if c = ',' then (pMembers f (skipWs r4)).bind (fun q => some ((k, v) :: q.1, q.2))
    else if c = '\x7d' then some ([(k, v)], r4)
    else none
  | _ + 1, _, _, [] => none

end

/-- `json.loads`: skip leading whitespace, read one value, allow only
trailing whitespace.  `none` models a raised `json.JSONDecodeError`. -/
def loads (s : List Char) : Option JVal :=
  match pVal (4 * s.length + 4) (skipWs s) with
  | some p => if skipWs p.2 = [] then some p.1 else none
  | none => none

/-- The hexadecimal digit character for `d < 16`, lower case. -/
def hexDigitChar (d : Nat) : Char :=
  if d < 10 then Char.ofNat (48 + d) else Char.ofNat (87 + d)

/-- One escaped character of `json.dumps` output with `ensure_ascii=False`
(the form the repository uses): the two-character short escapes, `\u00XX`
for other control characters, and every other character written raw. -/
def escChar (c : Char) : List Char :=
  if c = '"' then ['\\', '"']
  else if c = '\\' then ['\\', '\\']
  else if c = '\n' then ['\\', 'n']
  else if c = '\r' then ['\\', 'r']
  else if c = '\t' then ['\\', 't']
  else if c = '\x08' then ['\\', 'b']
  else if c = '\x0c' then ['\\', 'f']
  else if c.toNat < 32 then
    ['\\', 'u', '0', '0', hexDigitChar (c.toNat / 16), hexDigitChar (c.toNat % 16)]
  else [c]

/-- Escape a whole string body for `json.dumps`. -/
def escStr (s : List Char) : List Char := (s.map escChar).flatten

/-- Serialize an integer as Python prints `int`. -/
def dumpInt (n : Int) : List Char :=
  (if n < 0 then ['-'] else []) ++ natToChars n.natAbs

/-- Serialize the exact decimal `m * 10 ^ e` the way Python prints a
float in positional notation: always a decimal point, a fraction digit
`0` when the value is integral.  (Python's switch to scientific notation
for extreme magnitudes is a float-repr detail outside the model.) -/
def dumpFloat (m e : Int) : List Char :=
  let sign : List Char := if m < 0 then ['-'] else []
  let ds := natToChars m.natAbs
  if 0 ≤ e then sign ++ ds ++ List.replicate e.toNat '0' ++ ['.', '0']
  else if ds.length ≤ (-e).toNat then
    sign ++ ['0', '.'] ++ List.replicate ((-e).toNat - ds.length) '0' ++ ds
  else
    sign ++ ds.take (ds.length - (-e).toNat) ++ ['.'] ++ ds.drop (ds.length - (-e).toNat)

mutual

/-- `json.dumps` with the default separators `", "` and `": "`. -/
def dumpV : JVal → List Char
  | JVal.null => strL "null"
  | JVal.bool true => strL "true"
  | JVal.bool false => strL "false"
  | JVal.jint n => dumpInt n
  | JVal.jfloat m e => dumpFloat m e
  | JVal.str s => '"' :: (escStr s ++ ['"'])
  | JVal.arr [] => strL "[]"
  | JVal.arr (x :: xs) => '[' :: (dumpV x ++ dumpElemsTail xs ++ [']'])
  | JVal.obj [] => strL "\x7b\x7d"
  | JVal.obj (kv :: kvs) => '\x7b' :: (dumpMember kv ++ dumpMembersTail kvs ++ ['\x7d'])

/-- Remaining array elements, each preceded by `", "`. -/
def dumpElemsTail : List JVal → List Char
  | [] => []
  | x :: xs => ',' :: ' ' :: (dumpV x ++ dumpElemsTail xs)

/-- One object member `"key": value`. -/
def dumpMember : List Char × JVal → List Char
  | (k, v) => '"' :: (escStr k ++ ['"', ':', ' '] ++ dumpV v)

/-- Remaining object members, each preceded by `", "`. -/
def dumpMembersTail : List (List Char × JVal) → List Char
  | [] => []
  | kv :: kvs => ',' :: ' ' :: (dumpMember kv ++ dumpMembersTail kvs)

end

/-- No key occurs twice. -/
def nodupKeys : List (List Char) → Bool
  | [] => true
  | k :: rest => !(rest.contains k) && nodupKeys rest

mutual

/-- Well-formed JSON values: exactly the values `loads` can produce.
Floats are normalised (`normNum`) and object key lists are duplicate-free
(`insKV` collapses duplicates). -/
def wfB : JVal → Bool
  | JVal.jfloat m e => if m = 0 then e == 0 else m.natAbs % 10 != 0
  | JVal.arr xs => wfArr xs
  | JVal.obj kvs => nodupKeys (kvs.map Prod.fst) && wfObj kvs
  | _ => true

/-- All elements are well formed. -/
def wfArr : List JVal → Bool
  | [] => true
  | x :: xs => wfB x && wfArr xs

/-- All member values are well formed. -/
def wfObj : List (List Char × JVal) → Bool
  | [] => true
  | kv :: kvs => wfB kv.2 && wfObj kvs

end

mutual

/-- Fuel needed by `pVal` to read a value: one unit per node. -/
def fsize : JVal → Nat
  | JVal.arr xs => 2 + fsizeArr xs
  | JVal.obj kvs => 2 + fsizeObj kvs
  | _ => 1

/-- Fuel needed to read the elements of an array. -/
def fsizeArr : List JVal → Nat
  | [] => 0
  | x :: xs => fsize x + 2 + fsizeArr xs

/-- Fuel needed to read the members of an object. -/
def fsizeObj : List (List Char × JVal) → Nat
  | [] => 0
  | kv :: kvs => fsize kv.2 + 3 + fsizeObj kvs

end

/-! ## Embedding of the repository sources -/

/-- The message of the `ValueError` raised when the model text is not
valid JSON (`invoiceextract.py` line 82): the f-string prefix up to the
interpolated raw output. -/
def errPre : List Char := strL "Model did not return valid JSON. Raw output:\n"

/-- The parse step of `call_ollama_llama32` (`invoiceextract.py` lines
77-84): `json.loads(model_text)`, re-raised as a `ValueError` carrying
`model_text` when JSON decoding fails. -/
def parseModelText (model_text : List Char) : Except (List Char) JVal :=
  match loads model_text with
  | some v => Except.ok v
  | none => Except.error (errPre ++ model_text)

/-- The five required output keys named by the prompt of
`invoiceextract.py` (the field schema of the pipeline). -/
def requiredKeys : List (List Char) :=
  [strL "invoice_number", strL "invoice_date", strL "customer_name",
   strL "total_amount", strL "currency"]

/-- The key list of a parsed JSON object (empty for non-objects). -/
def jKeys : JVal → List (List Char)
  | JVal.obj kvs => kvs.map Prod.fst
  | _ => []

/-- Text of the `build_prompt` f-string before the interpolated
`pdf_text` (`invoiceextract.py` lines 32-52), ending with the opening
triple-quote fence. -/
def promptPre : List Char :=
  strL "\nYou are an information extraction assistant.\n\nYou will be given the text content of a PDF document (such as an invoice, form, or statement).\nYour task is to extract the following key fields and return a STRICT JSON object only, with no extra text:\n\nRequired keys:\n- \"invoice_number\"\n- \"invoice_date\"\n- \"customer_name\"\n- \"total_amount\"\n- \"currency\"\n\nRules:\n- If a field is missing or not clearly available, set its value to null.\n- Do NOT include any additional keys.\n- Do NOT add explanations.\n- Output must be valid JSON only.\n\nPDF TEXT:\n\"\"\""

/-- Text of the `build_prompt` f-string after the interpolated
`pdf_text`: the closing triple-quote fence and final newline. -/
def promptSuf : List Char := strL "\"\"\"\n"

/-- `build_prompt` (`invoiceextract.py` lines 27-53): the fixed
instruction template with the document text interpolated between the
triple-quote fences. -/
def build_prompt (pdf_text : List Char) : List Char :=
  promptPre ++ pdf_text ++ promptSuf

/-- The extracted text of one `pypdf` page: `page.extract_text() or ""`
degrades a page with no extractable text (`None`) to the empty string. -/
def pageText (p : Option (List Char)) : List Char := p.getD []

/-- The pure core of `extract_text_from_pdf` (`invoiceextract.py` lines
18-24) on the per-page extraction results:
`"\n\n".join(all_text).strip()`. -/
def joinPages (pages : List (Option (List Char))) : List Char :=
  pyStrip (pyJoin (strL "\n\n") (pages.map pageText))

/-- Errors surfaced by the pipeline: `FileNotFoundError` for a missing
path and the `ValueError` for unparseable model output. -/
inductive PipeError where
  | notFound (path : List Char)
  | malformed (msg : List Char)
deriving DecidableEq

/-- The filesystem, mapping each existing path to the per-page
extraction results of the PDF stored there. -/
def FileSys : Type := List (List Char × List (Option (List Char)))

/-- `extract_text_from_pdf` (`invoiceextract.py` lines 10-24): raise
`FileNotFoundError` if the path does not exist, otherwise join the page
texts. -/
def extract_text_from_pdf (fs : FileSys) (pdf_path : List Char) :
    Except PipeError (List Char) :=
  match List.lookup pdf_path fs with
  | none => Except.error (PipeError.notFound pdf_path)
  | some pages => Except.ok (joinPages pages)

/-- `call_ollama_llama32` (`invoiceextract.py` lines 56-84) with the
model endpoint as an oracle from prompt to response content.  Returns
the parsed result (or the `ValueError`) together with the number of
requests issued, which is one whenever this function runs. -/
def call_ollama_llama32 (oracle : List Char → List Char)
    (prompt : List Char) : Except PipeError JVal × Nat :=
  let content := oracle prompt
  let model_text := pyStrip content
  (match loads model_text with
   | some v => Except.ok v
   | none => Except.error (PipeError.malformed (errPre ++ model_text)), 1)

/-- `extract_key_values_from_pdf` (`invoiceextract.py` lines 87-94):
extract the text, build the prompt, call the model.  The second
component counts the network requests issued by the run. -/
def extract_key_values_from_pdf (fs : FileSys) (oracle : List Char → List Char)
    (pdf_path : List Char) : Except PipeError JVal × Nat :=
  match extract_text_from_pdf fs pdf_path with
  | Except.error e => (Except.error e, 0)
  | Except.ok pdf_text => call_ollama_llama32 oracle (build_prompt pdf_text)

/-! ## Definitions written from the specification, for comparison -/

/-- Modelled from the spec (section 4.4 step 2): the recovery heuristic
that is claimed for the parser — the substring of the response from the
first opening brace to the last closing brace.  No such heuristic exists
in the code; this definition only states what the spec describes. -/
def extractBraces (t : List Char) : List Char :=
  ((t.dropWhile (fun c => c ≠ '\x7b')).reverse.dropWhile (fun c => c ≠ '\x7d')).reverse

/-- Pages joined with a blank line between consecutive pages, as the
spec words it (section 4.1): the empty text for a failed page, a
two-newline separator between neighbours. -/
def blankJoin : List (List Char) → List Char
  | [] => []
  | [t] => t
  | t :: u :: rest => t ++ '\n' :: '\n' :: blankJoin (u :: rest)

/-- Modelled from the spec (sections 3 and 4.1): per-page texts joined
in original order with a blank-line separator, trimmed of surrounding
whitespace. -/
def joinPagesSpec (pages : List (Option (List Char))) : List Char :=
  pyStrip (blankJoin (pages.map (fun p => p.getD [])))

/-- The number of blank-line separators of a text: non-overlapping
occurrences of two consecutive newlines, scanned from the left.  The
spec's page count of an extracted text is this plus one. -/
def countSep : List Char → Nat
  | [] => 0
  | [_] => 0
  | a :: b :: rest =>
    if a = '\n' ∧ b = '\n' then countSep rest + 1 else countSep (b :: rest)

/-- A page text acceptable to the spec's page-count property: nonempty,
holding no blank-line separator itself, and neither starting nor ending
with whitespace. -/
def goodPage (p : List Char) : Bool :=
  !p.isEmpty && countSep p == 0 &&
    (match p.head? with | some c => !pyWs c | none => false) &&
    (match p.getLast? with | some c => !pyWs c | none => false)

/-- The model response text of the spec's five-key scenario. -/
def c4Text : List Char :=
  strL "\x7b\"invoice_number\": \"INV-001\", \"invoice_date\": null, \"customer_name\": \"Acme\", \"total_amount\": 100.5, \"currency\": \"USD\"\x7d"

/-- The JSON object the five-key scenario parses to (`100.5` is the
exact decimal `1005 * 10 ^ -1`). -/
def c4Val : JVal :=
  JVal.obj [(strL "invoice_number", JVal.str (strL "INV-001")),
    (strL "invoice_date", JVal.null),
    (strL "customer_name", JVal.str (strL "Acme")),
    (strL "total_amount", JVal.jfloat 1005 (-1)),
    (strL "currency", JVal.str (strL "USD"))]

/-- The recovery-scenario response text of the spec. -/
def c2Text : List Char := strL "Here is the result: \x7b\"a\":1\x7d Thanks!"

/-- What may follow a serialized value inside `json.dumps` output:
nothing, or a separator or closing bracket. -/
def delimOk : List Char → Prop
  | [] => True
  | c :: _ => c = ',' ∨ c = ']' ∨ c = '\x7d'

/-- A serialized fragment beginning with a character that is neither
whitespace nor a closing token, as every `dumpV` output does. -/
def goodHead (l : List Char) : Prop :=
  ∃ c cs, l = c :: cs ∧ jsonWs c = false ∧ c ≠ ']' ∧ c ≠ '\x7d' ∧ c ≠ ','

/-! ## Theorems -/

/-- C3: for a path that names no existing file, the pipeline run fails
with the file-not-found error and issues zero network requests — the
text extraction raises before the model client ever runs. -/
theorem c3_no_network_call_on_missing_file (fs : FileSys)
    (oracle : List Char → List Char) (path : List Char)
    (h : List.lookup path fs = none) :
    extract_key_values_from_pdf fs oracle path =
      (Except.error (PipeError.notFound path), 0) := by
  simp [extract_key_values_from_pdf, extract_text_from_pdf, h]

/-- C3 witness: the spec scenario, `invoice.pdf` on an empty filesystem. -/
theorem c3_witness :
    List.lookup (strL "invoice.pdf") ([] : FileSys) = none ∧
    extract_key_values_from_pdf [] (fun _ => strL "x") (strL "invoice.pdf") =
      (Except.error (PipeError.notFound (strL "invoice.pdf")), 0) :=
  ⟨rfl, c3_no_network_call_on_missing_file [] (fun _ => strL "x") (strL "invoice.pdf") rfl⟩

/-- C5: whenever the model text is not parseable as JSON, the parse step
raises the ValueError, and its message carries the offending response
text in full. -/
theorem c5_malformed_error_carries_text (t : List Char) (h : loads t = none) :
    parseModelText t = Except.error (errPre ++ t) ∧
    ∃ pre suf, errPre ++ t = pre ++ t ++ suf := by
  refine ⟨by simp [parseModelText, h], errPre, [], by simp⟩

/-- C5 witness: prose with no braces at all. -/
theorem c5_witness :
    loads (strL "no json here") = none ∧
    (parseModelText (strL "no json here") = Except.error (errPre ++ strL "no json here") ∧
     ∃ pre suf, errPre ++ strL "no json here" = pre ++ strL "no json here" ++ suf) :=
  ⟨rfl, c5_malformed_error_carries_text (strL "no json here") rfl⟩

/-- C2 counterexample: on the spec's recovery-scenario input, the code's
parse step fails with the ValueError even though the brace substring of
the input parses to the object the spec expects — no recovery heuristic
is attempted. -/
theorem c2_counterexample :
    parseModelText c2Text = Except.error (errPre ++ c2Text) ∧
    loads (extractBraces c2Text) = some (JVal.obj [(strL "a", JVal.jint 1)]) :=
  ⟨rfl, rfl⟩

/-- C2 amended: the parser attempts no recovery — whenever strict JSON
parsing of the model text fails, the ValueError is raised at once,
regardless of any recoverable brace substring. -/
theorem c2_amended_no_recovery (t : List Char) (h : loads t = none) :
    parseModelText t = Except.error (errPre ++ t) := by
  simp [parseModelText, h]

/-- C2 amended witness: the recovery-scenario input itself. -/
theorem c2_amended_witness :
    loads c2Text = none ∧
    parseModelText c2Text = Except.error (errPre ++ c2Text) :=
  ⟨rfl, c2_amended_no_recovery c2Text rfl⟩

/-- C1 counterexample: a response whose single key is outside the schema
parses successfully, and the result's key set is not the schema's —
extra keys are not dropped and missing schema keys are not null-filled. -/
theorem c1_counterexample :
    parseModelText (strL "\x7b\"foo\": 1\x7d") =
      Except.ok (JVal.obj [(strL "foo", JVal.jint 1)]) ∧
    jKeys (JVal.obj [(strL "foo", JVal.jint 1)]) ≠ requiredKeys :=
  ⟨rfl, by decide⟩

/-- C1 amended: the parse step performs no key-set validation at all —
whatever JSON value `json.loads` yields is returned unchanged, so the
successful result's key set is exactly the response's own key set. -/
theorem c1_amended_no_key_validation (t : List Char) (v : JVal)
    (h : loads t = some v) : parseModelText t = Except.ok v := by
  simp [parseModelText, h]

/-- C1 amended witness: the out-of-schema response again. -/
theorem c1_amended_witness :
    loads (strL "\x7b\"foo\": 1\x7d") = some (JVal.obj [(strL "foo", JVal.jint 1)]) ∧
    parseModelText (strL "\x7b\"foo\": 1\x7d") =
      Except.ok (JVal.obj [(strL "foo", JVal.jint 1)]) :=
  ⟨rfl, c1_amended_no_key_validation _ _ rfl⟩

/-- C4: on the spec's exact five-key response text the parse step
succeeds with precisely the parsed object — string values stay strings,
the number stays numeric (the exact decimal 100.5), the null stays null,
and the keys are exactly the schema's five keys. -/
theorem c4_five_key_scenario :
    loads c4Text = some c4Val ∧
    parseModelText c4Text = Except.ok c4Val ∧
    jKeys c4Val = requiredKeys :=
  ⟨rfl, rfl, by decide⟩

set_option maxRecDepth 4000 in
/-- C9: the prompt builder is a total function over the document text;
its fixed key schema is non-empty (five keys), and the document text is
embedded verbatim — the prompt is literally the fixed prefix, the text,
and the fixed suffix, with the text sitting between the two
triple-quote fences that end the prefix and begin the suffix. -/
theorem c9_prompt_embeds_text_verbatim :
    requiredKeys.length = 5 ∧
    (∀ t, build_prompt t = promptPre ++ t ++ promptSuf) ∧
    promptPre.reverse.take 3 = ['"', '"', '"'] ∧
    promptSuf.take 3 = ['"', '"', '"'] := by
  refine ⟨by decide, fun t => rfl, by decide, by decide⟩

/-- C10: the parse step classifies by JSON syntax alone — it succeeds
exactly when `json.loads` succeeds, whatever the shape of the value, so
a JSON array or a bare JSON string is returned as the result as-is. -/
theorem c10_any_json_value_accepted :
    (∀ t, (∃ v, parseModelText t = Except.ok v) ↔ (∃ v, loads t = some v)) ∧
    parseModelText (strL "[1, 2]") = Except.ok (JVal.arr [JVal.jint 1, JVal.jint 2]) ∧
    parseModelText (strL "\"hi\"") = Except.ok (JVal.str (strL "hi")) := by
  refine ⟨fun t => ?_, rfl, rfl⟩
  cases h : loads t <;> simp [parseModelText, h]

/-- The source's page join and the spec's wording of it agree. -/
theorem pyJoin_eq_blankJoin (ps : List (List Char)) :
    pyJoin (strL "\n\n") ps = blankJoin ps := by
  induction ps with
  | nil => rfl
  | cons x rest ih =>
    cases rest with
    | nil => rfl
    | cons y rest' =>
      rw [pyJoin, blankJoin, ih]
      have hsep : strL "\n\n" = ['\n', '\n'] := rfl
      rw [hsep, List.append_assoc]
      rfl

/-- The source's extracted text and the spec's description of it agree. -/
theorem joinPages_eq_spec (pages : List (Option (List Char))) :
    joinPages pages = joinPagesSpec pages := by
  unfold joinPages joinPagesSpec
  rw [pyJoin_eq_blankJoin]
  rfl

/-- Stripping a string of nothing but whitespace leaves nothing. -/
theorem pyStrip_all_ws (l : List Char) (h : ∀ c ∈ l, pyWs c = true) :
    pyStrip l = [] := by
  unfold pyStrip
  rw [List.dropWhile_eq_nil_iff.mpr (fun c hc => h c hc)]
  rfl

/-- Every character of the join of blank pages is a newline. -/
theorem mem_pyJoin_replicate_nil :
    ∀ (n : Nat) (c : Char), c ∈ pyJoin (strL "\n\n") (List.replicate n []) → c = '\n'
  | 0, c, h => by simp [pyJoin] at h
  | 1, c, h => by simp [pyJoin] at h
  | (k + 2), c, h => by
    have hj : pyJoin (strL "\n\n") (List.replicate (k + 2) []) =
        '\n' :: '\n' :: pyJoin (strL "\n\n") (List.replicate (k + 1) []) := by
      show pyJoin _ ([] :: [] :: List.replicate k []) = _
      rw [pyJoin]
      rfl
    rw [hj] at h
    simp only [List.mem_cons] at h
    rcases h with h | h | h
    · exact h
    · exact h
    · exact mem_pyJoin_replicate_nil (k + 1) c h

/-- C6: for a readable file, the extracted text is the per-page texts
joined in original order with a blank line between consecutive pages —
a page with no extractable text contributing the empty string — and
trimmed of surrounding whitespace; a document of blank pages yields the
empty string; and whenever the file exists the pipeline goes on to build
the prompt and issue the one model request, empty text included. -/
theorem c6_pages_joined_and_empty_text_ok (fs : FileSys)
    (oracle : List Char → List Char) (path : List Char)
    (pages : List (Option (List Char)))
    (hfs : List.lookup path fs = some pages) :
    extract_text_from_pdf fs path = Except.ok (joinPagesSpec pages) ∧
    (∀ n, joinPages (List.replicate n none) = []) ∧
    (extract_key_values_from_pdf fs oracle path).2 = 1 := by
  refine ⟨?_, ?_, ?_⟩
  · simp [extract_text_from_pdf, hfs, joinPages_eq_spec]
  · intro n
    unfold joinPages
    have hmap : (List.replicate n (none : Option (List Char))).map pageText =
        List.replicate n [] := by
      simp [pageText]
    rw [hmap]
    refine pyStrip_all_ws _ (fun c hc => ?_)
    have hc' : c = '\n' := mem_pyJoin_replicate_nil n c hc
    rw [hc']
    rfl
  · simp [extract_key_values_from_pdf, extract_text_from_pdf, hfs, call_ollama_llama32]

/-- C6 witness: a two-page document with no extractable text on either
page, at an existing path. -/
theorem c6_witness :
    List.lookup (strL "e.pdf")
        ([(strL "e.pdf", [none, none])] : FileSys) = some [none, none] ∧
    (extract_text_from_pdf [(strL "e.pdf", [none, none])] (strL "e.pdf") =
        Except.ok (joinPagesSpec [none, none]) ∧
      (∀ n, joinPages (List.replicate n none) = []) ∧
      (extract_key_values_from_pdf [(strL "e.pdf", [none, none])]
          (fun _ => strL "x") (strL "e.pdf")).2 = 1) :=
  ⟨rfl, c6_pages_joined_and_empty_text_ok [(strL "e.pdf", [none, none])]
    (fun _ => strL "x") (strL "e.pdf") [none, none] rfl⟩

/-- A blank-line separator at the front counts once. -/
theorem countSep_cons_cons_nl (l : List Char) :
    countSep ('\n' :: '\n' :: l) = countSep l + 1 := by
  rw [countSep]
  simp

/-- Two leading characters that are not a separator do not count. -/
theorem countSep_cons_cons_not (a b : Char) (l : List Char)
    (h : ¬(a = '\n' ∧ b = '\n')) : countSep (a :: b :: l) = countSep (b :: l) := by
  rw [countSep]
  simp [h]

/-- Separator counting distributes over append when no separator can
straddle the boundary. -/
theorem countSep_append (l1 l2 : List Char) :
    l1.getLast? ≠ some '\n' → countSep (l1 ++ l2) = countSep l1 + countSep l2 := by
  induction l1 using countSep.induct with
  | case1 => intro _; simp [countSep]
  | case2 a =>
    intro h
    have ha : a ≠ '\n' := fun hh => h (by rw [hh]; rfl)
    cases l2 with
    | nil => simp [countSep]
    | cons b l2' =>
      show countSep (a :: b :: l2') = countSep [a] + countSep (b :: l2')
      rw [countSep_cons_cons_not a b l2' (fun hh => ha hh.1), countSep]
      omega
  | case3 a b rest hab ih =>
    intro h
    obtain ⟨ha, hb⟩ := hab
    subst ha; subst hb
    cases rest with
    | nil => exact absurd rfl h
    | cons x xs =>
      have hlast : (x :: xs).getLast? ≠ some '\n' := by
        rw [List.getLast?_cons_cons, List.getLast?_cons_cons] at h
        exact h
      have hih := ih hlast
      show countSep ('\n' :: '\n' :: ((x :: xs) ++ l2)) =
        countSep ('\n' :: '\n' :: (x :: xs)) + countSep l2
      rw [countSep_cons_cons_nl, countSep_cons_cons_nl, hih]
      omega
  | case4 a b rest hab ih =>
    intro h
    have hlast : (b :: rest).getLast? ≠ some '\n' := by
      rw [List.getLast?_cons_cons] at h
      exact h
    have hih := ih hlast
    show countSep (a :: b :: (rest ++ l2)) = countSep (a :: b :: rest) + countSep l2
    rw [countSep_cons_cons_not a b _ hab, countSep_cons_cons_not a b _ hab]
    exact hih

/-- The head of an append is the head of a nonempty left part. -/
theorem head?_append_left (l l2 : List Char) (h : l ≠ []) :
    (l ++ l2).head? = l.head? := by
  cases l with
  | nil => exact absurd rfl h
  | cons c cs => rfl

/-- A join starting from a nonempty page is nonempty. -/
theorem pyJoin_cons_ne_nil (x : List Char) (rest : List (List Char)) (hx : x ≠ []) :
    pyJoin (strL "\n\n") (x :: rest) ≠ [] := by
  cases rest with
  | nil => exact hx
  | cons y rest' =>
    rw [pyJoin]
    simp [hx]

/-- The head of a join is the head of the first page. -/
theorem pyJoin_cons_head? (x : List Char) (rest : List (List Char)) (hx : x ≠ []) :
    (pyJoin (strL "\n\n") (x :: rest)).head? = x.head? := by
  cases rest with
  | nil => rfl
  | cons y rest' =>
    rw [pyJoin, List.append_assoc]
    exact head?_append_left x _ hx

/-- The last character of a join is the last character of one of the
pages. -/
theorem pyJoin_getLast_mem :
    ∀ (x : List Char) (rest : List (List Char)), (∀ p ∈ x :: rest, p ≠ []) →
      ∃ p, p ∈ x :: rest ∧
        (pyJoin (strL "\n\n") (x :: rest)).getLast? = p.getLast?
  | x, [], _ => ⟨x, List.mem_singleton_self x, rfl⟩
  | x, y :: rest', h => by
    obtain ⟨p, hp, hlast⟩ :=
      pyJoin_getLast_mem y rest' (fun q hq => h q (List.mem_cons_of_mem x hq))
    refine ⟨p, List.mem_cons_of_mem x hp, ?_⟩
    have hjoin_ne : pyJoin (strL "\n\n") (y :: rest') ≠ [] :=
      pyJoin_cons_ne_nil y rest' (h y (by simp))
    have h1 : pyJoin (strL "\n\n") (x :: y :: rest') =
        x ++ (strL "\n\n" ++ pyJoin (strL "\n\n") (y :: rest')) := by
      rw [pyJoin, List.append_assoc]
    rw [h1, List.getLast?_append_of_ne_nil x (by simp [hjoin_ne]),
      List.getLast?_append_of_ne_nil (strL "\n\n") hjoin_ne, hlast]

/-- Joining pages that are free of separators and do not end in a
newline yields exactly one separator between each pair of neighbours. -/
theorem countSep_pyJoin :
    ∀ (x : List Char) (rest : List (List Char)),
      (∀ p ∈ x :: rest, countSep p = 0 ∧ p.getLast? ≠ some '\n') →
      countSep (pyJoin (strL "\n\n") (x :: rest)) + 1 = (x :: rest).length
  | x, [], h => by
    have := (h x (List.mem_cons_self x [])).1
    show countSep x + 1 = 1
    omega
  | x, y :: rest', h => by
    have hx := h x (List.mem_cons_self x _)
    have ih := countSep_pyJoin y rest' (fun q hq => h q (List.mem_cons_of_mem x hq))
    have h1 : pyJoin (strL "\n\n") (x :: y :: rest') =
        x ++ ('\n' :: '\n' :: pyJoin (strL "\n\n") (y :: rest')) := by
      rw [pyJoin, List.append_assoc]
      rfl
    rw [h1, countSep_append x _ hx.2, countSep_cons_cons_nl]
    simp only [List.length_cons] at ih ⊢
    omega

/-- Stripping is the identity on a string that neither starts nor ends
with whitespace. -/
theorem pyStrip_eq_self (l : List Char)
    (h1 : ∀ c, l.head? = some c → pyWs c = false)
    (h2 : ∀ c, l.getLast? = some c → pyWs c = false) : pyStrip l = l := by
  unfold pyStrip
  have hd : l.dropWhile pyWs = l := by
    cases l with
    | nil => rfl
    | cons c cs => rw [List.dropWhile_cons]; simp [h1 c rfl]
  rw [hd]
  have hr : l.reverse.dropWhile pyWs = l.reverse := by
    cases hrev : l.reverse with
    | nil => rfl
    | cons c cs =>
      rw [List.dropWhile_cons]
      have hc : l.getLast? = some c := by
        rw [← List.head?_reverse, hrev]; rfl
      simp [h2 c hc]
  rw [hr, List.reverse_reverse]

/-- Unpack the `goodPage` test into its four propositions. -/
theorem goodPage_spec (p : List Char) (h : goodPage p = true) :
    p ≠ [] ∧ countSep p = 0 ∧ (∀ c, p.head? = some c → pyWs c = false) ∧
      (∀ c, p.getLast? = some c → pyWs c = false) := by
  unfold goodPage at h
  simp only [Bool.and_eq_true] at h
  obtain ⟨⟨⟨h1, h2⟩, h3⟩, h4⟩ := h
  refine ⟨by simpa using h1, by simpa using h2, ?_, ?_⟩
  · intro c hc; rw [hc] at h3; simpa using h3
  · intro c hc; rw [hc] at h4; simpa using h4

/-- C7 counterexample: a one-page PDF whose page text itself contains a
blank line.  The extracted text's page count computed as blank-line
separators plus one is two, not the document's one page. -/
theorem c7_counterexample :
    countSep (joinPages [some (strL "a\n\nb")]) + 1 ≠
      ([some (strL "a\n\nb")] : List (Option (List Char))).length := by
  decide

/-- C7 amended: the separator count plus one equals the page count
whenever every page text is nonempty, contains no blank-line separator
of its own, and neither starts nor ends with whitespace. -/
theorem c7_amended_page_count (pages : List (List Char)) (hne : pages ≠ [])
    (h : ∀ p ∈ pages, goodPage p = true) :
    countSep (joinPages (pages.map some)) + 1 = pages.length := by
  obtain ⟨x, rest, rfl⟩ := List.exists_cons_of_ne_nil hne
  have hmap : ((x :: rest).map some).map pageText = x :: rest := by
    rw [List.map_map]
    exact List.map_id'' (fun p => rfl) (x :: rest)
  unfold joinPages
  rw [hmap]
  have hspec := fun p hp => goodPage_spec p (h p hp)
  have hstrip : pyStrip (pyJoin (strL "\n\n") (x :: rest)) =
      pyJoin (strL "\n\n") (x :: rest) := by
    refine pyStrip_eq_self _ ?_ ?_
    · intro c hc
      rw [pyJoin_cons_head? x rest (hspec x (List.mem_cons_self x rest)).1] at hc
      exact (hspec x (List.mem_cons_self x rest)).2.2.1 c hc
    · intro c hc
      obtain ⟨p, hp, hlast⟩ :=
        pyJoin_getLast_mem x rest (fun q hq => (hspec q hq).1)
      rw [hlast] at hc
      exact (hspec p hp).2.2.2 c hc
  rw [hstrip]
  refine countSep_pyJoin x rest (fun p hp => ⟨(hspec p hp).2.1, ?_⟩)
  intro hlast
  have := (hspec p hp).2.2.2 '\n' hlast
  exact absurd this (by decide)

/-- C7 amended witness: a two-page document with the page texts `a`
and `b`. -/
theorem c7_amended_witness :
    (([strL "a", strL "b"] : List (List Char)) ≠ [] ∧
      ∀ p ∈ ([strL "a", strL "b"] : List (List Char)), goodPage p = true) ∧
    countSep (joinPages ([strL "a", strL "b"].map some)) + 1 = 2 :=
  ⟨⟨by decide, by decide⟩,
    c7_amended_page_count [strL "a", strL "b"] (by decide) (by decide)⟩

/-- The digit character of `d < 10` evaluates back to `d`. -/
theorem charVal_digitChar (d : Nat) (h : d < 10) : charVal (digitChar d) = d := by
  interval_cases d <;> decide

/-- The digit character of `d < 10` is a digit. -/
theorem isDigit_digitChar (d : Nat) (h : d < 10) : (digitChar d).isDigit = true := by
  interval_cases d <;> decide

/-- A digit character's value is below ten. -/
theorem charVal_lt_of_isDigit (c : Char) (h : c.isDigit = true) : charVal c < 10 := by
  have h48 : 48 ≤ c.toNat ∧ c.toNat ≤ 57 := by
    simp [Char.isDigit] at h
    exact ⟨h.1, h.2⟩
  unfold charVal
  omega

/-- A digit differs from any non-digit character. -/
theorem isDigit_ne (c x : Char) (h : c.isDigit = true) (hx : x.isDigit = false) :
    c ≠ x := by
  intro hh
  rw [hh] at h
  rw [h] at hx
  cases hx

/-- Reading a run of digits stops exactly at the first non-digit. -/
theorem takeWhile_digits_append (ds rest : List Char)
    (hds : ∀ c ∈ ds, c.isDigit = true)
    (hrest : ∀ c, rest.head? = some c → c.isDigit = false) :
    (ds ++ rest).takeWhile Char.isDigit = ds ∧
    (ds ++ rest).dropWhile Char.isDigit = rest := by
  induction ds with
  | nil =>
    cases rest with
    | nil => exact ⟨rfl, rfl⟩
    | cons c cs =>
      simp only [List.nil_append, List.takeWhile_cons, List.dropWhile_cons,
        hrest c rfl]
      exact ⟨rfl, rfl⟩
  | cons d ds' ih =>
    have hd := hds d (List.mem_cons_self d ds')
    obtain ⟨h1, h2⟩ := ih (fun c hc => hds c (List.mem_cons_of_mem d hc))
    simp only [List.cons_append, List.takeWhile_cons, List.dropWhile_cons, hd]
    simp [h1, h2]

/-- Horner evaluation inverts the little-endian digit expansion. -/
theorem foldr_horner_ofDigits (l : List Nat) :
    l.foldr (fun d a => a * 10 + d) 0 = Nat.ofDigits 10 l := by
  induction l with
  | nil => rfl
  | cons d l' ih =>
    rw [List.foldr_cons, ih, Nat.ofDigits_cons]
    ring

/-- Horner evaluation of a reversed digit expansion. -/
theorem hornerN_reverse_digits (l : List Nat) :
    hornerN l.reverse = Nat.ofDigits 10 l := by
  unfold hornerN
  rw [List.foldl_reverse]
  exact foldr_horner_ofDigits l

/-- Horner evaluation of the printed digits of `n` recovers `n`. -/
theorem hornerN_natToChars (n : Nat) : hornerN ((natToChars n).map charVal) = n := by
  unfold natToChars
  by_cases h : n = 0
  · subst h; decide
  · rw [if_neg h, List.map_map]
    have hmap : (Nat.digits 10 n).reverse.map (charVal ∘ digitChar) =
        (Nat.digits 10 n).reverse := by
      have hcv : ∀ d ∈ (Nat.digits 10 n).reverse, (charVal ∘ digitChar) d = id d := by
        intro d hd
        exact charVal_digitChar d
          (Nat.digits_lt_base (by norm_num) (List.mem_reverse.mp hd))
      rw [List.map_congr_left hcv, List.map_id]
    rw [hmap, hornerN_reverse_digits, Nat.ofDigits_digits]

/-- Every printed digit character is a digit. -/
theorem natToChars_all_digits (n : Nat) : ∀ c ∈ natToChars n, c.isDigit = true := by
  intro c hc
  unfold natToChars at hc
  by_cases h : n = 0
  · rw [if_pos h] at hc
    simp at hc
    rw [hc]; decide
  · rw [if_neg h] at hc
    obtain ⟨d, hd, rfl⟩ := List.mem_map.mp hc
    exact isDigit_digitChar d
      (Nat.digits_lt_base (by norm_num) (List.mem_reverse.mp hd))

/-- A printed number has at least one digit. -/
theorem natToChars_ne_nil (n : Nat) : natToChars n ≠ [] := by
  unfold natToChars
  by_cases h : n = 0
  · rw [if_pos h]; simp
  · rw [if_neg h]
    simp [Nat.digits_ne_nil_iff_ne_zero.mpr h]

/-- The digit character is `0` only for the digit zero. -/
theorem digitChar_eq_zero_iff (d : Nat) (h : d < 10) : (digitChar d = '0') ↔ d = 0 := by
  interval_cases d <;> simp <;> decide

/-- A printed nonzero number has no leading zero. -/
theorem natToChars_head_ne_zero (n : Nat) (h : n ≠ 0) :
    ∀ c, (natToChars n).head? = some c → c ≠ '0' := by
  intro c hc
  unfold natToChars at hc
  rw [if_neg h] at hc
  have hnil : Nat.digits 10 n ≠ [] := Nat.digits_ne_nil_iff_ne_zero.mpr h
  obtain ⟨d, l', hdl⟩ := List.exists_cons_of_ne_nil
    (by simpa using hnil : (Nat.digits 10 n).reverse ≠ [])
  rw [hdl] at hc
  simp at hc
  subst hc
  have hd10 : d < 10 := Nat.digits_lt_base (by norm_num)
    (List.mem_reverse.mp (by rw [hdl]; exact List.mem_cons_self d l'))
  have hdne : d ≠ 0 := by
    have hlast := Nat.getLast_digit_ne_zero 10 h
    have hgl : (Nat.digits 10 n).getLast? = some d := by
      rw [← List.head?_reverse, hdl]
      rfl
    rw [List.getLast?_eq_getLast _ hnil] at hgl
    have hValEq : (Nat.digits 10 n).getLast hnil = d := by
      injection hgl
    rw [hValEq] at hlast
    exact hlast
  intro hc0
  exact hdne ((digitChar_eq_zero_iff d hd10).mp hc0)

/-- Horner evaluation from an arbitrary accumulator. -/
theorem foldl_horner_acc (ds : List Nat) :
    ∀ a, ds.foldl (fun a d => a * 10 + d) a = a * 10 ^ ds.length + hornerN ds := by
  induction ds with
  | nil => intro a; simp [hornerN]
  | cons d ds' ih =>
    intro a
    rw [List.foldl_cons, ih (a * 10 + d)]
    have hh : hornerN (d :: ds') = d * 10 ^ ds'.length + hornerN ds' := by
      unfold hornerN
      rw [List.foldl_cons]
      have h0 : (0 : Nat) * 10 + d = d := by omega
      rw [h0, ih d]
      rfl
    rw [hh]
    simp [List.length_cons, pow_succ]
    ring

/-- Horner evaluation across an append. -/
theorem hornerN_append (ds1 ds2 : List Nat) :
    hornerN (ds1 ++ ds2) = hornerN ds1 * 10 ^ ds2.length + hornerN ds2 := by
  unfold hornerN
  rw [List.foldl_append]
  exact foldl_horner_acc ds2 _

/-- A run of zero digits evaluates to zero. -/
theorem hornerN_replicate_zero (k : Nat) : hornerN (List.replicate k 0) = 0 := by
  induction k with
  | zero => rfl
  | succ m ih =>
    rw [List.replicate_succ]
    unfold hornerN at ih ⊢
    rw [List.foldl_cons]
    simpa using ih

/-- Leading zero digits do not change the value. -/
theorem hornerN_replicate_zero_append (k : Nat) (ds : List Nat) :
    hornerN (List.replicate k 0 ++ ds) = hornerN ds := by
  rw [hornerN_append, hornerN_replicate_zero]
  simp

/-- Appending zero digits multiplies the value by a power of ten. -/
theorem hornerN_append_zeros (ds : List Nat) (k : Nat) :
    hornerN (ds ++ List.replicate k 0) = hornerN ds * 10 ^ k := by
  rw [hornerN_append, hornerN_replicate_zero]
  simp

/-- The last digit determines the value modulo ten. -/
theorem hornerN_concat_mod (ds : List Nat) (d : Nat) :
    hornerN (ds ++ [d]) % 10 = d % 10 := by
  rw [hornerN_append]
  have : hornerN [d] = d := by simp [hornerN]
  rw [this]
  simp [pow_one]
  omega

/-- Dropping a predicate-satisfying replicate prefix. -/
theorem dropWhile_replicate_append (k : Nat) (l : List Nat) :
    (List.replicate k 0 ++ l).dropWhile (fun d => d = 0) = l.dropWhile (fun d => d = 0) := by
  induction k with
  | zero => rfl
  | succ m ih =>
    rw [List.replicate_succ, List.cons_append, List.dropWhile_cons]
    simp only [decide_True, if_true]
    exact ih

/-- Stripping recognises exactly the appended zeros when the stem does
not end in zero. -/
theorem stripZeros_spec (ds : List Nat) (k : Nat)
    (hlast : ∀ d, ds.getLast? = some d → d ≠ 0) :
    stripZeros (ds ++ List.replicate k 0) = (ds, k) := by
  unfold stripZeros
  have hrev : (ds ++ List.replicate k 0).reverse =
      List.replicate k 0 ++ ds.reverse := by
    rw [List.reverse_append, List.reverse_replicate]
  rw [hrev, dropWhile_replicate_append]
  have hds : ds.reverse.dropWhile (fun d => d = 0) = ds.reverse := by
    cases hrevds : ds.reverse with
    | nil => rfl
    | cons d l' =>
      rw [List.dropWhile_cons]
      have hd : ds.getLast? = some d := by
        rw [← List.head?_reverse, hrevds]; rfl
      simp [hlast d hd]
  rw [hds]
  simp

/-- Stripping a pure run of zeros leaves nothing. -/
theorem stripZeros_replicate (k : Nat) :
    stripZeros (List.replicate k 0) = ([], k) := by
  have h := stripZeros_spec [] k (fun d hd => by cases hd)
  rw [List.nil_append] at h
  exact h

/-- Normalisation of a mantissa with a clean stem and appended zeros. -/
theorem normNum_trailing (neg : Bool) (ds : List Nat) (k : Nat) (e : Int)
    (hne : ds ≠ []) (hlast : ∀ d, ds.getLast? = some d → d ≠ 0) :
    normNum neg (ds ++ List.replicate k 0) e =
      JVal.jfloat (intOfSign neg (hornerN ds)) (e + k) := by
  unfold normNum
  rw [stripZeros_spec ds k hlast]
  simp [hne]

/-- Normalisation of an all-zero mantissa. -/
theorem normNum_zero (neg : Bool) (k : Nat) (e : Int) :
    normNum neg (List.replicate k 0) e = JVal.jfloat 0 0 := by
  unfold normNum
  rw [stripZeros_replicate]
  simp

/-- No fraction part begins without a dot. -/
theorem pFracPart_no_dot (s : List Char) (h : ∀ c, s.head? = some c → c ≠ '.') :
    pFracPart s = some (none, s) := by
  cases s with
  | nil => rfl
  | cons c r =>
    unfold pFracPart
    simp [h c rfl]

/-- No exponent part begins without an `e`. -/
theorem pExpPart_no_exp (s : List Char) (h : ∀ c, s.head? = some c → c ≠ 'e' ∧ c ≠ 'E') :
    pExpPart s = some (none, s) := by
  cases s with
  | nil => rfl
  | cons c r =>
    unfold pExpPart
    have hc := h c rfl
    simp [hc.1, hc.2]

/-- A plain digit run parses as the integer it denotes. -/
theorem pNum_digits_only (ids rest : List Char) (hne : ids ≠ [])
    (hds : ∀ c ∈ ids, c.isDigit = true)
    (hlead : ¬(1 < ids.length ∧ ids.headD 'x' = '0'))
    (hrest : ∀ c, rest.head? = some c → c.isDigit = false ∧ c ≠ '.' ∧ c ≠ 'e' ∧ c ≠ 'E') :
    pNum (ids ++ rest) = some (JVal.jint (hornerN (ids.map charVal)), rest) := by
  obtain ⟨c0, cs0, hids⟩ := List.exists_cons_of_ne_nil hne
  have hc0 : c0.isDigit = true := hds c0 (by rw [hids]; exact List.mem_cons_self c0 cs0)
  have hc0ne : c0 ≠ '-' := isDigit_ne c0 '-' hc0 (by decide)
  obtain ⟨htake, hdrop⟩ :=
    takeWhile_digits_append ids rest hds (fun c hc => (hrest c hc).1)
  have hfrac := pFracPart_no_dot rest (fun c hc => (hrest c hc).2.1)
  have hexp := pExpPart_no_exp rest (fun c hc => ⟨(hrest c hc).2.2.1, (hrest c hc).2.2.2⟩)
  subst hids
  unfold pNum
  simp only [List.cons_append]
  simp only [if_neg hc0ne]
  simp only [← List.cons_append, htake, hdrop]
  rw [if_neg (List.cons_ne_nil c0 cs0), if_neg hlead, hfrac]
  change (pExpPart rest).bind _ = _
  rw [hexp]
  rfl

/-- A signed digit run parses as the negated integer. -/
theorem pNum_neg_digits (ids rest : List Char) (hne : ids ≠ [])
    (hds : ∀ c ∈ ids, c.isDigit = true)
    (hlead : ¬(1 < ids.length ∧ ids.headD 'x' = '0'))
    (hrest : ∀ c, rest.head? = some c → c.isDigit = false ∧ c ≠ '.' ∧ c ≠ 'e' ∧ c ≠ 'E') :
    pNum ('-' :: (ids ++ rest)) =
      some (JVal.jint (-(hornerN (ids.map charVal) : Int)), rest) := by
  obtain ⟨htake, hdrop⟩ :=
    takeWhile_digits_append ids rest hds (fun c hc => (hrest c hc).1)
  have hfrac := pFracPart_no_dot rest (fun c hc => (hrest c hc).2.1)
  have hexp := pExpPart_no_exp rest (fun c hc => ⟨(hrest c hc).2.2.1, (hrest c hc).2.2.2⟩)
  unfold pNum
  simp only [if_true]
  simp only [htake, hdrop]
  rw [if_neg hne, if_neg hlead, hfrac]
  change (pExpPart rest).bind _ = _
  rw [hexp]
  rfl

/-- A printed number never trips the leading-zero refusal. -/
theorem natToChars_no_leading_zero (n : Nat) :
    ¬(1 < (natToChars n).length ∧ (natToChars n).headD 'x' = '0') := by
  by_cases h : n = 0
  · subst h
    intro hc
    simp [natToChars] at hc
  · intro hc
    obtain ⟨c0, cs0, hids⟩ := List.exists_cons_of_ne_nil (natToChars_ne_nil n)
    have hhead : (natToChars n).head? = some c0 := by rw [hids]; rfl
    have := natToChars_head_ne_zero n h c0 hhead
    rw [hids] at hc
    exact this (by simpa using hc.2)

/-- A serialized integer parses back to itself. -/
theorem pNum_dumpInt (n : Int) (rest : List Char)
    (hrest : ∀ c, rest.head? = some c → c.isDigit = false ∧ c ≠ '.' ∧ c ≠ 'e' ∧ c ≠ 'E') :
    pNum (dumpInt n ++ rest) = some (JVal.jint n, rest) := by
  by_cases hn : n < 0
  · have hd : dumpInt n = '-' :: natToChars n.natAbs := by
      unfold dumpInt
      rw [if_pos hn]
      rfl
    rw [hd, List.cons_append,
      pNum_neg_digits (natToChars n.natAbs) rest (natToChars_ne_nil _)
        (natToChars_all_digits _) (natToChars_no_leading_zero _) hrest,
      hornerN_natToChars]
    have : -(n.natAbs : Int) = n := by omega
    rw [this]
  · have hd : dumpInt n = natToChars n.natAbs := by
      unfold dumpInt
      rw [if_neg hn]
      rfl
    rw [hd,
      pNum_digits_only (natToChars n.natAbs) rest (natToChars_ne_nil _)
        (natToChars_all_digits _) (natToChars_no_leading_zero _) hrest,
      hornerN_natToChars]
    have : (n.natAbs : Int) = n := by omega
    rw [this]

/-- A dot followed by digits parses as a fraction part. -/
theorem pFracPart_dot (fds rest : List Char) (hfne : fds ≠ [])
    (hfds : ∀ c ∈ fds, c.isDigit = true)
    (hrest : ∀ c, rest.head? = some c → c.isDigit = false) :
    pFracPart ('.' :: (fds ++ rest)) = some (some fds, rest) := by
  obtain ⟨ht, hd⟩ := takeWhile_digits_append fds rest hfds hrest
  unfold pFracPart
  simp [ht, hd, hfne]

/-- An unsigned digits-dot-digits run parses as the normalised decimal. -/
theorem pNum_int_frac (ids fds rest : List Char) (hne : ids ≠ []) (hfne : fds ≠ [])
    (hds : ∀ c ∈ ids, c.isDigit = true) (hfds : ∀ c ∈ fds, c.isDigit = true)
    (hlead : ¬(1 < ids.length ∧ ids.headD 'x' = '0'))
    (hrest : ∀ c, rest.head? = some c → c.isDigit = false ∧ c ≠ '.' ∧ c ≠ 'e' ∧ c ≠ 'E') :
    pNum (ids ++ '.' :: (fds ++ rest)) =
      some (normNum false ((ids ++ fds).map charVal) (0 - (fds.length : Int)), rest) := by
  obtain ⟨c0, cs0, hids⟩ := List.exists_cons_of_ne_nil hne
  have hc0 : c0.isDigit = true := hds c0 (by rw [hids]; exact List.mem_cons_self c0 cs0)
  have hc0ne : c0 ≠ '-' := isDigit_ne c0 '-' hc0 (by decide)
  obtain ⟨htake, hdrop⟩ := takeWhile_digits_append ids ('.' :: (fds ++ rest)) hds
    (fun c hc => by
      have hcc : c = '.' := by injection hc with h; exact h.symm
      rw [hcc]; decide)
  have hfrac := pFracPart_dot fds rest hfne hfds (fun c hc => (hrest c hc).1)
  have hexp := pExpPart_no_exp rest (fun c hc => ⟨(hrest c hc).2.2.1, (hrest c hc).2.2.2⟩)
  subst hids
  unfold pNum
  simp only [List.cons_append]
  simp only [if_neg hc0ne]
  simp only [← List.cons_append] at htake hdrop hfrac ⊢
  simp only [htake, hdrop]
  rw [if_neg (List.cons_ne_nil c0 cs0), if_neg hlead, hfrac]
  change (pExpPart rest).bind _ = _
  rw [hexp]
  rfl

/-- A signed digits-dot-digits run parses as the negated normalised
decimal. -/
theorem pNum_neg_int_frac (ids fds rest : List Char) (hne : ids ≠ []) (hfne : fds ≠ [])
    (hds : ∀ c ∈ ids, c.isDigit = true) (hfds : ∀ c ∈ fds, c.isDigit = true)
    (hlead : ¬(1 < ids.length ∧ ids.headD 'x' = '0'))
    (hrest : ∀ c, rest.head? = some c → c.isDigit = false ∧ c ≠ '.' ∧ c ≠ 'e' ∧ c ≠ 'E') :
    pNum ('-' :: (ids ++ '.' :: (fds ++ rest))) =
      some (normNum true ((ids ++ fds).map charVal) (0 - (fds.length : Int)), rest) := by
  obtain ⟨htake, hdrop⟩ := takeWhile_digits_append ids ('.' :: (fds ++ rest)) hds
    (fun c hc => by
      have hcc : c = '.' := by injection hc with h; exact h.symm
      rw [hcc]; decide)
  have hfrac := pFracPart_dot fds rest hfne hfds (fun c hc => (hrest c hc).1)
  have hexp := pExpPart_no_exp rest (fun c hc => ⟨(hrest c hc).2.2.1, (hrest c hc).2.2.2⟩)
  unfold pNum
  simp only [if_true]
  simp only [← List.cons_append] at htake hdrop hfrac ⊢
  simp only [htake, hdrop]
  rw [if_neg hne, if_neg hlead, hfrac]
  change (pExpPart rest).bind _ = _
  rw [hexp]
  rfl

/-- The printed digit values of `n` end in a nonzero digit whenever `n`
is not divisible by ten. -/
theorem mapCharVal_last_ne_zero (n : Nat) (h : n % 10 ≠ 0) :
    ∀ d, ((natToChars n).map charVal).getLast? = some d → d ≠ 0 := by
  intro d hd hdz
  subst hdz
  have hLne : (natToChars n).map charVal ≠ [] := by
    simp [natToChars_ne_nil n]
  rw [List.getLast?_eq_getLast _ hLne] at hd
  have hglv : ((natToChars n).map charVal).getLast hLne = 0 := by injection hd
  have hsplit := List.dropLast_append_getLast hLne
  rw [hglv] at hsplit
  have hh := hornerN_natToChars n
  rw [← hsplit, hornerN_append] at hh
  have : n % 10 = 0 := by
    rw [← hh]
    simp [hornerN]
  exact h this

/-- Normalising a digit expansion made of leading zeros, the digits of
`a`, and trailing zeros. -/
theorem normNum_mantissa (a : Nat) (h10 : a % 10 ≠ 0) (neg : Bool) (j k : Nat) (E : Int) :
    normNum neg (List.replicate j 0 ++ ((natToChars a).map charVal ++ List.replicate k 0)) E =
      JVal.jfloat (intOfSign neg a) (E + k) := by
  have hLne : (natToChars a).map charVal ≠ [] := by
    simp [natToChars_ne_nil a]
  have hstem_ne : List.replicate j 0 ++ (natToChars a).map charVal ≠ [] := by
    simp [hLne]
  have hlast : ∀ d, (List.replicate j 0 ++ (natToChars a).map charVal).getLast? = some d →
      d ≠ 0 := by
    intro d hd
    rw [List.getLast?_append_of_ne_nil _ hLne] at hd
    exact mapCharVal_last_ne_zero a h10 d hd
  rw [← List.append_assoc,
    normNum_trailing neg _ k E hstem_ne hlast,
    hornerN_replicate_zero_append, hornerN_natToChars]

/-- A digit run whose head is not zero never trips the leading-zero
refusal. -/
theorem no_leading_zero_of_head (ids : List Char)
    (hhead : ∀ c, ids.head? = some c → c ≠ '0') :
    ¬(1 < ids.length ∧ ids.headD 'x' = '0') := by
  rintro ⟨h1, h2⟩
  cases ids with
  | nil => simp at h1
  | cons c cs => exact hhead c rfl (by simpa using h2)

/-- The head of a nonempty take is the head of the list. -/
theorem head?_take (ds : List Char) (n : Nat) (hn : 0 < n) :
    (ds.take n).head? = ds.head? := by
  cases ds with
  | nil => simp
  | cons c cs =>
    cases n with
    | zero => omega
    | succ k => rfl

/-- A serialized float parses back to itself when it is normalised. -/
theorem pNum_dumpFloat (m e : Int) (rest : List Char)
    (hm0 : m = 0 → e = 0) (hm10 : m ≠ 0 → m.natAbs % 10 ≠ 0)
    (hrest : ∀ c, rest.head? = some c → c.isDigit = false ∧ c ≠ '.' ∧ c ≠ 'e' ∧ c ≠ 'E') :
    pNum (dumpFloat m e ++ rest) = some (JVal.jfloat m e, rest) := by
  by_cases hm : m = 0
  · subst hm
    have he0 : e = 0 := hm0 rfl
    subst he0
    have hshape : dumpFloat 0 0 ++ rest = ['0'] ++ '.' :: (['0'] ++ rest) := rfl
    rw [hshape, pNum_int_frac ['0'] ['0'] rest (by simp) (by simp)
      (by decide) (by decide) (by decide) hrest]
    rfl
  · have h10 := hm10 hm
    have hane : m.natAbs ≠ 0 := by
      simpa using hm
    have hds_ne := natToChars_ne_nil m.natAbs
    have hds_dig := natToChars_all_digits m.natAbs
    have hds_head := natToChars_head_ne_zero m.natAbs hane
    have hcv0 : charVal '0' = 0 := rfl
    by_cases he : 0 ≤ e
    · have hids_ne : natToChars m.natAbs ++ List.replicate e.toNat '0' ≠ [] := by
        simp [hds_ne]
      have hids_dig : ∀ c ∈ natToChars m.natAbs ++ List.replicate e.toNat '0',
          c.isDigit = true := by
        intro c hc
        rcases List.mem_append.mp hc with h | h
        · exact hds_dig c h
        · rw [List.eq_of_mem_replicate h]; decide
      have hlead := no_leading_zero_of_head (natToChars m.natAbs ++ List.replicate e.toNat '0')
        (fun c hc => hds_head c (by rwa [head?_append_left _ _ hds_ne] at hc))
      have hfds : ∀ c ∈ (['0'] : List Char), c.isDigit = true := by decide
      have hmant : ((natToChars m.natAbs ++ List.replicate e.toNat '0') ++ ['0']).map charVal =
          (natToChars m.natAbs).map charVal ++ List.replicate (e.toNat + 1) 0 := by
        rw [List.map_append, List.map_append, List.map_replicate, hcv0]
        have h1 : (['0'] : List Char).map charVal = [0] := rfl
        rw [h1, List.append_assoc, ← List.replicate_succ']
      have hnorm := normNum_mantissa m.natAbs h10
      by_cases hneg : m < 0
      · have hshape : dumpFloat m e ++ rest =
            '-' :: ((natToChars m.natAbs ++ List.replicate e.toNat '0') ++
              '.' :: (['0'] ++ rest)) := by
          unfold dumpFloat
          rw [if_pos he, if_pos hneg]
          simp [List.append_assoc]
        rw [hshape, pNum_neg_int_frac _ _ _ hids_ne (by simp) hids_dig hfds hlead hrest,
          hmant]
        have hn := hnorm true 0 (e.toNat + 1) (0 - 1)
        rw [List.replicate_zero, List.nil_append] at hn
        simp only [List.length_singleton, Nat.cast_one]
        rw [hn]
        have hmv : intOfSign true m.natAbs = m := by
          show -(m.natAbs : Int) = m
          omega
        have hev : (0 - 1 : Int) + (e.toNat + 1 : Nat) = e := by
          push_cast
          omega
        rw [hmv, hev]
      · have hshape : dumpFloat m e ++ rest =
            (natToChars m.natAbs ++ List.replicate e.toNat '0') ++
              '.' :: (['0'] ++ rest) := by
          unfold dumpFloat
          rw [if_pos he, if_neg hneg]
          simp [List.append_assoc]
        rw [hshape, pNum_int_frac _ _ _ hids_ne (by simp) hids_dig hfds hlead hrest,
          hmant]
        have hn := hnorm false 0 (e.toNat + 1) (0 - 1)
        rw [List.replicate_zero, List.nil_append] at hn
        simp only [List.length_singleton, Nat.cast_one]
        rw [hn]
        have hmv : intOfSign false m.natAbs = m := by
          show (m.natAbs : Int) = m
          omega
        have hev : (0 - 1 : Int) + (e.toNat + 1 : Nat) = e := by
          push_cast
          omega
        rw [hmv, hev]
    · by_cases hlen : (natToChars m.natAbs).length ≤ (-e).toNat
      · -- 0.00…ds form
        have hfds_ne : List.replicate ((-e).toNat - (natToChars m.natAbs).length) '0' ++
            natToChars m.natAbs ≠ [] := by
          simp [hds_ne]
        have hfds_dig : ∀ c ∈ List.replicate ((-e).toNat - (natToChars m.natAbs).length) '0' ++
            natToChars m.natAbs, c.isDigit = true := by
          intro c hc
          rcases List.mem_append.mp hc with h | h
          · rw [List.eq_of_mem_replicate h]; decide
          · exact hds_dig c h
        have hmant : ((['0'] : List Char) ++
            (List.replicate ((-e).toNat - (natToChars m.natAbs).length) '0' ++
              natToChars m.natAbs)).map charVal =
            List.replicate (((-e).toNat - (natToChars m.natAbs).length) + 1) 0 ++
              ((natToChars m.natAbs).map charVal ++ List.replicate 0 0) := by
          rw [List.map_append, List.map_append, List.map_replicate, hcv0]
          have h1 : (['0'] : List Char).map charVal = [0] := rfl
          rw [h1, List.replicate_zero, List.append_nil, ← List.append_assoc]
          have h2 : ([0] : List Nat) ++
              List.replicate ((-e).toNat - (natToChars m.natAbs).length) 0 =
              List.replicate (((-e).toNat - (natToChars m.natAbs).length) + 1) 0 := by
            rw [List.replicate_succ]
            rfl
          rw [h2]
        by_cases hneg : m < 0
        · have hshape : dumpFloat m e ++ rest =
              '-' :: ((['0'] : List Char) ++
                '.' :: ((List.replicate ((-e).toNat - (natToChars m.natAbs).length) '0' ++
                  natToChars m.natAbs) ++ rest)) := by
            unfold dumpFloat
            rw [if_neg he, if_pos hlen, if_pos hneg]
            simp [List.append_assoc]
          rw [hshape, pNum_neg_int_frac _ _ _ (by simp) hfds_ne (by decide) hfds_dig
            (by decide) hrest, hmant]
          rw [normNum_mantissa m.natAbs h10 true
            (((-e).toNat - (natToChars m.natAbs).length) + 1) 0]
          have hmv : intOfSign true m.natAbs = m := by
            show -(m.natAbs : Int) = m
            omega
          have hev : (0 - ((List.replicate ((-e).toNat - (natToChars m.natAbs).length) '0' ++
              natToChars m.natAbs).length : Int)) + (0 : Nat) = e := by
            simp only [List.length_append, List.length_replicate]
            push_cast
            omega
          rw [hmv, hev]
        · have hshape : dumpFloat m e ++ rest =
              (['0'] : List Char) ++
                '.' :: ((List.replicate ((-e).toNat - (natToChars m.natAbs).length) '0' ++
                  natToChars m.natAbs) ++ rest) := by
            unfold dumpFloat
            rw [if_neg he, if_pos hlen, if_neg hneg]
            simp [List.append_assoc]
          rw [hshape, pNum_int_frac _ _ _ (by simp) hfds_ne (by decide) hfds_dig
            (by decide) hrest, hmant]
          rw [normNum_mantissa m.natAbs h10 false
            (((-e).toNat - (natToChars m.natAbs).length) + 1) 0]
          have hmv : intOfSign false m.natAbs = m := by
            show (m.natAbs : Int) = m
            omega
          have hev : (0 - ((List.replicate ((-e).toNat - (natToChars m.natAbs).length) '0' ++
              natToChars m.natAbs).length : Int)) + (0 : Nat) = e := by
            simp only [List.length_append, List.length_replicate]
            push_cast
            omega
          rw [hmv, hev]
      · -- split form take/drop
        push_neg at hlen
        have htk_pos : 0 < (natToChars m.natAbs).length - (-e).toNat := by omega
        have hids_ne : (natToChars m.natAbs).take
            ((natToChars m.natAbs).length - (-e).toNat) ≠ [] := by
          intro hcontra
          have := congrArg List.length hcontra
          simp at this
          omega
        have hfds_ne : (natToChars m.natAbs).drop
            ((natToChars m.natAbs).length - (-e).toNat) ≠ [] := by
          intro hcontra
          have := congrArg List.length hcontra
          simp at this
          have hepos : 0 < (-e).toNat := by omega
          omega
        have hids_dig : ∀ c ∈ (natToChars m.natAbs).take
            ((natToChars m.natAbs).length - (-e).toNat), c.isDigit = true :=
          fun c hc => hds_dig c (List.take_subset _ _ hc)
        have hfds_dig : ∀ c ∈ (natToChars m.natAbs).drop
            ((natToChars m.natAbs).length - (-e).toNat), c.isDigit = true :=
          fun c hc => hds_dig c (List.drop_subset _ _ hc)
        have hlead := no_leading_zero_of_head _
          (fun c hc => hds_head c (by rwa [head?_take _ _ htk_pos] at hc))
        have hmant : ((natToChars m.natAbs).take
              ((natToChars m.natAbs).length - (-e).toNat) ++
            (natToChars m.natAbs).drop
              ((natToChars m.natAbs).length - (-e).toNat)).map charVal =
            List.replicate 0 0 ++ ((natToChars m.natAbs).map charVal ++ List.replicate 0 0) := by
          rw [List.take_append_drop, List.replicate_zero, List.append_nil, List.nil_append]
        by_cases hneg : m < 0
        · have hshape : dumpFloat m e ++ rest =
              '-' :: ((natToChars m.natAbs).take
                  ((natToChars m.natAbs).length - (-e).toNat) ++
                '.' :: ((natToChars m.natAbs).drop
                  ((natToChars m.natAbs).length - (-e).toNat) ++ rest)) := by
            unfold dumpFloat
            rw [if_neg he, if_neg (by omega : ¬(natToChars m.natAbs).length ≤ (-e).toNat),
              if_pos hneg]
            simp [List.append_assoc]
          rw [hshape, pNum_neg_int_frac _ _ _ hids_ne hfds_ne hids_dig hfds_dig hlead hrest,
            hmant]
          rw [normNum_mantissa m.natAbs h10 true 0 0]
          have hmv : intOfSign true m.natAbs = m := by
            show -(m.natAbs : Int) = m
            omega
          have hev : (0 - (((natToChars m.natAbs).drop
              ((natToChars m.natAbs).length - (-e).toNat)).length : Int)) + (0 : Nat) = e := by
            simp only [List.length_drop]
            push_cast
            omega
          rw [hmv, hev]
        · have hshape : dumpFloat m e ++ rest =
              (natToChars m.natAbs).take
                  ((natToChars m.natAbs).length - (-e).toNat) ++
                '.' :: ((natToChars m.natAbs).drop
                  ((natToChars m.natAbs).length - (-e).toNat) ++ rest) := by
            unfold dumpFloat
            rw [if_neg he, if_neg (by omega : ¬(natToChars m.natAbs).length ≤ (-e).toNat),
              if_neg hneg]
            simp [List.append_assoc]
          rw [hshape, pNum_int_frac _ _ _ hids_ne hfds_ne hids_dig hfds_dig hlead hrest,
            hmant]
          rw [normNum_mantissa m.natAbs h10 false 0 0]
          have hmv : intOfSign false m.natAbs = m := by
            show (m.natAbs : Int) = m
            omega
          have hev : (0 - (((natToChars m.natAbs).drop
              ((natToChars m.natAbs).length - (-e).toNat)).length : Int)) + (0 : Nat) = e := by
            simp only [List.length_drop]
            push_cast
            omega
          rw [hmv, hev]

/-- Escaping distributes over cons. -/
theorem escStr_cons (c : Char) (s : List Char) :
    escStr (c :: s) = escChar c ++ escStr s := by
  simp [escStr]

/-- The hexadecimal digit character of `d < 16` evaluates back to `d`. -/
theorem hexVal_hexDigitChar (d : Nat) (h : d < 16) : hexVal (hexDigitChar d) = d := by
  interval_cases d <;> decide

/-- The hexadecimal digit character of `d < 16` passes the hex test. -/
theorem hexOk_hexDigitChar (d : Nat) (h : d < 16) : hexOk (hexDigitChar d) = true := by
  interval_cases d <;> decide

/-- Parsing a string body undoes escaping: the serialized body followed
by the closing quote parses to the original characters. -/
theorem pStr_escStr (s : List Char) : ∀ rest : List Char,
    pStr (escStr s ++ '"' :: rest) = some (s, rest) := by
  induction s with
  | nil => intro rest; rfl
  | cons c s' ih =>
    intro rest
    rw [escStr_cons, List.append_assoc]
    by_cases h1 : c = '"'
    · subst h1
      have hstep : pStr (escChar '"' ++ (escStr s' ++ '"' :: rest)) =
          (pStr (escStr s' ++ '"' :: rest)).map (fun p => ('"' :: p.1, p.2)) := rfl
      rw [hstep, ih]
      rfl
    · by_cases h2 : c = '\\'
      · subst h2
        have hstep : pStr (escChar '\\' ++ (escStr s' ++ '"' :: rest)) =
            (pStr (escStr s' ++ '"' :: rest)).map (fun p => ('\\' :: p.1, p.2)) := rfl
        rw [hstep, ih]
        rfl
      · by_cases h3 : c = '\n'
        · subst h3
          have hstep : pStr (escChar '\n' ++ (escStr s' ++ '"' :: rest)) =
              (pStr (escStr s' ++ '"' :: rest)).map (fun p => ('\n' :: p.1, p.2)) := rfl
          rw [hstep, ih]
          rfl
        · by_cases h4 : c = '\r'
          · subst h4
            have hstep : pStr (escChar '\r' ++ (escStr s' ++ '"' :: rest)) =
                (pStr (escStr s' ++ '"' :: rest)).map (fun p => ('\r' :: p.1, p.2)) := rfl
            rw [hstep, ih]
            rfl
          · by_cases h5 : c = '\t'
            · subst h5
              have hstep : pStr (escChar '\t' ++ (escStr s' ++ '"' :: rest)) =
                  (pStr (escStr s' ++ '"' :: rest)).map (fun p => ('\t' :: p.1, p.2)) := rfl
              rw [hstep, ih]
              rfl
            · by_cases h6 : c = '\x08'
              · subst h6
                have hstep : pStr (escChar '\x08' ++ (escStr s' ++ '"' :: rest)) =
                    (pStr (escStr s' ++ '"' :: rest)).map (fun p => ('\x08' :: p.1, p.2)) := rfl
                rw [hstep, ih]
                rfl
              · by_cases h7 : c = '\x0c'
                · subst h7
                  have hstep : pStr (escChar '\x0c' ++ (escStr s' ++ '"' :: rest)) =
                      (pStr (escStr s' ++ '"' :: rest)).map (fun p => ('\x0c' :: p.1, p.2)) := rfl
                  rw [hstep, ih]
                  rfl
                · by_cases h8 : c.toNat < 32
                  · -- the \u00XX escape of a remaining control character
                    have hesc : escChar c = ['\\', 'u', '0', '0',
                        hexDigitChar (c.toNat / 16), hexDigitChar (c.toNat % 16)] := by
                      unfold escChar
                      rw [if_neg h1, if_neg h2, if_neg h3, if_neg h4, if_neg h5,
                        if_neg h6, if_neg h7, if_pos h8]
                    rw [hesc]
                    have hhi : c.toNat / 16 < 16 := by omega
                    have hlo : c.toNat % 16 < 16 := by omega
                    have hstep : pStr (('\\' :: 'u' :: '0' :: '0' ::
                        hexDigitChar (c.toNat / 16) :: hexDigitChar (c.toNat % 16) :: []) ++
                          (escStr s' ++ '"' :: rest)) =
                        pEsc ('u' :: '0' :: '0' :: hexDigitChar (c.toNat / 16) ::
                          hexDigitChar (c.toNat % 16) :: (escStr s' ++ '"' :: rest)) := rfl
                    rw [hstep]
                    have hstep2 : pEsc ('u' :: '0' :: '0' :: hexDigitChar (c.toNat / 16) ::
                        hexDigitChar (c.toNat % 16) :: (escStr s' ++ '"' :: rest)) =
                        pU ('0' :: '0' :: hexDigitChar (c.toNat / 16) ::
                          hexDigitChar (c.toNat % 16) :: (escStr s' ++ '"' :: rest)) := rfl
                    rw [hstep2]
                    unfold pU
                    have hok : (hexOk '0' && hexOk '0' &&
                        hexOk (hexDigitChar (c.toNat / 16)) &&
                        hexOk (hexDigitChar (c.toNat % 16))) = true := by
                      rw [hexOk_hexDigitChar _ hhi, hexOk_hexDigitChar _ hlo]
                      rfl
                    rw [if_pos hok]
                    have hn : hx4 '0' '0' (hexDigitChar (c.toNat / 16))
                        (hexDigitChar (c.toNat % 16)) = c.toNat := by
                      unfold hx4
                      rw [hexVal_hexDigitChar _ hhi, hexVal_hexDigitChar _ hlo]
                      have h0 : hexVal '0' = 0 := rfl
                      rw [h0]
                      omega
                    rw [hn]
                    rw [if_pos (Or.inl (by omega : c.toNat < 0xD800))]
                    rw [ih]
                    have hcc : Char.ofNat c.toNat = c := Char.ofNat_toNat c
                    rw [hcc]
                    rfl
                  · -- a raw character
                    have hesc : escChar c = [c] := by
                      unfold escChar
                      rw [if_neg h1, if_neg h2, if_neg h3, if_neg h4, if_neg h5,
                        if_neg h6, if_neg h7, if_neg h8]
                    rw [hesc]
                    have hstep : pStr ([c] ++ (escStr s' ++ '"' :: rest)) =
                        pStr (c :: (escStr s' ++ '"' :: rest)) := rfl
                    rw [hstep]
                    unfold pStr
                    rw [if_neg h1, if_neg h2, if_neg h8, ih]
                    rfl

/-- Skipping whitespace does nothing at a non-whitespace character. -/
theorem skipWs_not_ws (c : Char) (cs : List Char) (h : jsonWs c = false) :
    skipWs (c :: cs) = c :: cs := by
  unfold skipWs
  rw [List.dropWhile_cons]
  simp [h]

/-- Skipping whitespace passes a space. -/
theorem skipWs_space (l : List Char) : skipWs (' ' :: l) = skipWs l := by
  unfold skipWs
  rw [List.dropWhile_cons]
  rfl

/-- Characters differ when their code points differ. -/
theorem char_ne_of_toNat_ne (c x : Char) (h : c.toNat ≠ x.toNat) : c ≠ x :=
  fun hh => h (by rw [hh])

/-- A digit character is neither whitespace nor any structural JSON
character. -/
theorem isDigit_facts (c : Char) (h : c.isDigit = true) :
    jsonWs c = false ∧ c ≠ ']' ∧ c ≠ '\x7d' ∧ c ≠ ',' ∧ c ≠ 'n' ∧ c ≠ 't' ∧
      c ≠ 'f' ∧ c ≠ '"' ∧ c ≠ '[' ∧ c ≠ '\x7b' ∧ c ≠ '-' := by
  have h48 : 48 ≤ c.toNat ∧ c.toNat ≤ 57 := by
    simp [Char.isDigit] at h
    exact ⟨h.1, h.2⟩
  have hsp : c ≠ ' ' := char_ne_of_toNat_ne c ' ' (by
    have : (' ' : Char).toNat = 32 := rfl
    omega)
  have htab : c ≠ '\t' := char_ne_of_toNat_ne c '\t' (by
    have : ('\t' : Char).toNat = 9 := rfl
    omega)
  have hnl : c ≠ '\n' := char_ne_of_toNat_ne c '\n' (by
    have : ('\n' : Char).toNat = 10 := rfl
    omega)
  have hcr : c ≠ '\r' := char_ne_of_toNat_ne c '\r' (by
    have : ('\r' : Char).toNat = 13 := rfl
    omega)
  refine ⟨by simp [jsonWs, hsp, htab, hnl, hcr], ?_, ?_, ?_, ?_, ?_, ?_, ?_, ?_, ?_, ?_⟩
  · exact char_ne_of_toNat_ne c ']' (by
      have : (']' : Char).toNat = 93 := rfl
      omega)
  · exact char_ne_of_toNat_ne c '\x7d' (by
      have : ('\x7d' : Char).toNat = 125 := rfl
      omega)
  · exact char_ne_of_toNat_ne c ',' (by
      have : (',' : Char).toNat = 44 := rfl
      omega)
  · exact char_ne_of_toNat_ne c 'n' (by
      have : ('n' : Char).toNat = 110 := rfl
      omega)
  · exact char_ne_of_toNat_ne c 't' (by
      have : ('t' : Char).toNat = 116 := rfl
      omega)
  · exact char_ne_of_toNat_ne c 'f' (by
      have : ('f' : Char).toNat = 102 := rfl
      omega)
  · exact char_ne_of_toNat_ne c '"' (by
      have : ('"' : Char).toNat = 34 := rfl
      omega)
  · exact char_ne_of_toNat_ne c '[' (by
      have : ('[' : Char).toNat = 91 := rfl
      omega)
  · exact char_ne_of_toNat_ne c '\x7b' (by
      have : ('\x7b' : Char).toNat = 123 := rfl
      omega)
  · exact char_ne_of_toNat_ne c '-' (by
      have : ('-' : Char).toNat = 45 := rfl
      omega)

/-- A serialized integer starts with a safe character. -/
theorem dumpInt_goodHead (n : Int) : goodHead (dumpInt n) := by
  by_cases hn : n < 0
  · refine ⟨'-', natToChars n.natAbs, ?_, by decide, by decide, by decide, by decide⟩
    unfold dumpInt
    rw [if_pos hn]
    rfl
  · obtain ⟨c0, cs0, hds⟩ := List.exists_cons_of_ne_nil (natToChars_ne_nil n.natAbs)
    have hc0 : c0.isDigit = true := natToChars_all_digits n.natAbs c0
      (by rw [hds]; exact List.mem_cons_self c0 cs0)
    obtain ⟨hws, hne1, hne2, hne3, _⟩ := isDigit_facts c0 hc0
    refine ⟨c0, cs0, ?_, hws, hne1, hne2, hne3⟩
    unfold dumpInt
    rw [if_neg hn, hds]
    rfl

/-- A serialized float starts with a safe character. -/
theorem dumpFloat_goodHead (m e : Int) : goodHead (dumpFloat m e) := by
  by_cases hneg : m < 0
  · unfold dumpFloat
    rw [if_pos hneg]
    by_cases he : 0 ≤ e
    · rw [if_pos he]
      exact ⟨'-', _, rfl, by decide, by decide, by decide, by decide⟩
    · rw [if_neg he]
      by_cases hlen : (natToChars m.natAbs).length ≤ (-e).toNat
      · rw [if_pos hlen]
        exact ⟨'-', _, rfl, by decide, by decide, by decide, by decide⟩
      · rw [if_neg hlen]
        exact ⟨'-', _, rfl, by decide, by decide, by decide, by decide⟩
  · obtain ⟨c0, cs0, hds⟩ := List.exists_cons_of_ne_nil (natToChars_ne_nil m.natAbs)
    have hc0 : c0.isDigit = true := natToChars_all_digits m.natAbs c0
      (by rw [hds]; exact List.mem_cons_self c0 cs0)
    obtain ⟨hws, hne1, hne2, hne3, _⟩ := isDigit_facts c0 hc0
    unfold dumpFloat
    rw [if_neg hneg]
    by_cases he : 0 ≤ e
    · rw [if_pos he, hds]
      exact ⟨c0, _, rfl, hws, hne1, hne2, hne3⟩
    · rw [if_neg he]
      by_cases hlen : (natToChars m.natAbs).length ≤ (-e).toNat
      · rw [if_pos hlen]
        exact ⟨'0', _, rfl, by decide, by decide, by decide, by decide⟩
      · rw [if_neg hlen]
        push_neg at hlen
        have htk_pos : 0 < (natToChars m.natAbs).length - (-e).toNat := by omega
        have hhd : ((natToChars m.natAbs).take
            ((natToChars m.natAbs).length - (-e).toNat)).head? = some c0 := by
          rw [head?_take _ _ htk_pos, hds]
          rfl
        obtain ⟨c1, cs1, htk⟩ := List.exists_cons_of_ne_nil (l := (natToChars m.natAbs).take
            ((natToChars m.natAbs).length - (-e).toNat)) (by
          intro hcontra
          rw [hcontra] at hhd
          cases hhd)
        rw [htk] at hhd
        have hc1 : c1 = c0 := by injection hhd
        subst hc1
        rw [List.nil_append, htk]
        exact ⟨c1, _, rfl, hws, hne1, hne2, hne3⟩

/-- Every serialized value starts with a safe character. -/
theorem dumpV_goodHead (v : JVal) : goodHead (dumpV v) := by
  cases v with
  | null => exact ⟨'n', _, rfl, by decide, by decide, by decide, by decide⟩
  | bool b =>
    cases b with
    | true => exact ⟨'t', _, rfl, by decide, by decide, by decide, by decide⟩
    | false => exact ⟨'f', _, rfl, by decide, by decide, by decide, by decide⟩
  | jint n => exact dumpInt_goodHead n
  | jfloat m e => exact dumpFloat_goodHead m e
  | str s => exact ⟨'"', _, rfl, by decide, by decide, by decide, by decide⟩
  | arr xs =>
    cases xs with
    | nil => exact ⟨'[', _, rfl, by decide, by decide, by decide, by decide⟩
    | cons x xs' => exact ⟨'[', _, rfl, by decide, by decide, by decide, by decide⟩
  | obj kvs =>
    cases kvs with
    | nil => exact ⟨'\x7b', _, rfl, by decide, by decide, by decide, by decide⟩
    | cons kv kvs' => exact ⟨'\x7b', _, rfl, by decide, by decide, by decide, by decide⟩

/-- Induction over JSON values with hypotheses for every array element
and object member. -/
theorem JVal.myInd (P : JVal → Prop)
    (h1 : P .null) (h2 : ∀ b, P (.bool b)) (h3 : ∀ n, P (.jint n))
    (h4 : ∀ m e, P (.jfloat m e)) (h5 : ∀ s, P (.str s))
    (h6 : ∀ xs, (∀ x ∈ xs, P x) → P (.arr xs))
    (h7 : ∀ kvs, (∀ kv ∈ kvs, P kv.2) → P (.obj kvs)) : ∀ v, P v :=
  @JVal.rec P (fun xs => ∀ x ∈ xs, P x) (fun kvs => ∀ kv ∈ kvs, P kv.2)
    (fun kv => P kv.2)
    h1 h2 h3 h4 h5 h6 h7
    (fun x hx => absurd hx (List.not_mem_nil x))
    (fun _ _ ihh iht x hx => by
      cases hx with
      | head => exact ihh
      | tail _ h => exact iht x h)
    (fun kv hkv => absurd hkv (List.not_mem_nil kv))
    (fun _ _ ihh iht kv hkv => by
      cases hkv with
      | head => exact ihh
      | tail _ h => exact iht kv h)
    (fun _ _ hb => hb)

/-- Dict insertion into the empty list. -/
theorem insKV_nil (k : List Char) (v : JVal) : insKV [] k v = [(k, v)] := rfl

/-- Dict insertion into a cons. -/
theorem insKV_cons (p : List Char × JVal) (t : List (List Char × JVal))
    (k : List Char) (v : JVal) :
    insKV (p :: t) k v =
      if p.1 = k then (p.1, v) :: t else (p.1, p.2) :: insKV t k v := rfl

/-- Member well-formedness over a cons. -/
theorem wfObj_cons (p : List Char × JVal) (t : List (List Char × JVal)) :
    wfObj (p :: t) = (wfB p.2 && wfObj t) := rfl

/-- The Boolean key-distinctness test is `List.Nodup`. -/
theorem nodupKeys_iff (l : List (List Char)) : nodupKeys l = true ↔ l.Nodup := by
  induction l with
  | nil => simp [nodupKeys]
  | cons k rest ih =>
    unfold nodupKeys
    rw [Bool.and_eq_true, List.nodup_cons, ih]
    constructor
    · rintro ⟨h1, h2⟩
      refine ⟨fun hmem => ?_, h2⟩
      have h1' : rest.elem k = false := by simpa using h1
      have : rest.elem k = true := List.elem_iff.mpr hmem
      rw [this] at h1'
      cases h1'
    · rintro ⟨h1, h2⟩
      refine ⟨?_, h2⟩
      have h1' : rest.elem k = false := by
        by_cases hc : rest.elem k
        · exact absurd (List.elem_iff.mp hc) h1
        · simpa using hc
      simpa using h1'

/-- Inserting a fresh key appends it. -/
theorem insKV_not_mem (acc : List (List Char × JVal)) (k : List Char) (v : JVal)
    (h : ∀ kv ∈ acc, kv.1 ≠ k) : insKV acc k v = acc ++ [(k, v)] := by
  induction acc with
  | nil => rfl
  | cons kv' t ih =>
    rw [insKV_cons, if_neg (h kv' (List.mem_cons_self kv' t)),
      ih (fun kv hkv => h kv (List.mem_cons_of_mem kv' hkv))]
    rfl

/-- Folding pairwise-distinct members through dict insertion rebuilds
them in order. -/
theorem foldl_insKV_nodup :
    ∀ (kvs acc : List (List Char × JVal)),
      ((acc ++ kvs).map Prod.fst).Nodup →
      kvs.foldl (fun a kv => insKV a kv.1 kv.2) acc = acc ++ kvs := by
  intro kvs
  induction kvs with
  | nil =>
    intro acc _
    simp
  | cons kv kvs' ih =>
    intro acc hnd
    have hfresh : ∀ p ∈ acc, p.1 ≠ kv.1 := by
      intro p hp hpk
      rw [List.map_append, List.nodup_append] at hnd
      refine hnd.2.2 (List.mem_map_of_mem Prod.fst hp) ?_
      rw [hpk]
      exact List.mem_map_of_mem Prod.fst (List.mem_cons_self kv kvs')
    have hfold : (kv :: kvs').foldl (fun a q => insKV a q.1 q.2) acc =
        kvs'.foldl (fun a q => insKV a q.1 q.2) (insKV acc kv.1 kv.2) := rfl
    rw [hfold, insKV_not_mem acc kv.1 kv.2 hfresh]
    have hshift : (acc ++ [(kv.1, kv.2)]) ++ kvs' = acc ++ kv :: kvs' := by
      rw [List.append_assoc]
      rfl
    rw [ih (acc ++ [(kv.1, kv.2)]) (by rw [hshift]; exact hnd), hshift]

/-- Every key of the insertion result is an old key or the new one. -/
theorem keys_insKV (acc : List (List Char × JVal)) (k : List Char) (v : JVal) :
    ∀ a ∈ (insKV acc k v).map Prod.fst, a ∈ acc.map Prod.fst ∨ a = k := by
  induction acc with
  | nil =>
    intro a ha
    rw [insKV_nil] at ha
    simp at ha
    right
    exact ha
  | cons kv' t ih =>
    intro a ha
    rw [insKV_cons] at ha
    by_cases hk : kv'.1 = k
    · rw [if_pos hk] at ha
      rw [List.map_cons, List.mem_cons] at ha
      rcases ha with ha | ha
      · left
        rw [List.map_cons, List.mem_cons]
        left
        simpa using ha
      · left
        rw [List.map_cons, List.mem_cons]
        right
        exact ha
    · rw [if_neg hk] at ha
      rw [List.map_cons, List.mem_cons] at ha
      rcases ha with ha | ha
      · left
        rw [List.map_cons, List.mem_cons]
        left
        simpa using ha
      · rcases ih a ha with h | h
        · left
          rw [List.map_cons, List.mem_cons]
          right
          exact h
        · right
          exact h

/-- Dict insertion preserves key distinctness. -/
theorem nodup_insKV (acc : List (List Char × JVal)) (k : List Char) (v : JVal)
    (h : (acc.map Prod.fst).Nodup) : ((insKV acc k v).map Prod.fst).Nodup := by
  induction acc with
  | nil =>
    rw [insKV_nil]
    simp
  | cons kv' t ih =>
    rw [insKV_cons]
    by_cases hk : kv'.1 = k
    · rw [if_pos hk]
      simpa using h
    · rw [if_neg hk]
      simp only [List.map_cons, List.nodup_cons] at h ⊢
      refine ⟨fun hmem => ?_, ih h.2⟩
      rcases keys_insKV t k v kv'.1 hmem with hh | hh
      · exact h.1 hh
      · exact hk hh

/-- Dict insertion preserves member-value well-formedness. -/
theorem wfObj_insKV (acc : List (List Char × JVal)) (k : List Char) (v : JVal)
    (hacc : wfObj acc = true) (hv : wfB v = true) : wfObj (insKV acc k v) = true := by
  induction acc with
  | nil =>
    rw [insKV_nil, wfObj_cons, Bool.and_eq_true]
    exact ⟨hv, rfl⟩
  | cons kv' t ih =>
    rw [wfObj_cons, Bool.and_eq_true] at hacc
    rw [insKV_cons]
    by_cases hk : kv'.1 = k
    · rw [if_pos hk, wfObj_cons, Bool.and_eq_true]
      exact ⟨hv, hacc.2⟩
    · rw [if_neg hk, wfObj_cons, Bool.and_eq_true]
      exact ⟨hacc.1, ih hacc.2⟩

/-- The member fold keeps keys distinct and values well formed. -/
theorem foldl_insKV_wf (kvs : List (List Char × JVal)) :
    ∀ acc, ((acc.map Prod.fst).Nodup) → wfObj acc = true →
      (∀ kv ∈ kvs, wfB kv.2 = true) →
      (((kvs.foldl (fun a kv => insKV a kv.1 kv.2) acc).map Prod.fst).Nodup ∧
        wfObj (kvs.foldl (fun a kv => insKV a kv.1 kv.2) acc) = true) := by
  induction kvs with
  | nil => intro acc h1 h2 _; exact ⟨h1, h2⟩
  | cons kv kvs' ih =>
    intro acc h1 h2 hall
    have hfold : (kv :: kvs').foldl (fun a q => insKV a q.1 q.2) acc =
        kvs'.foldl (fun a q => insKV a q.1 q.2) (insKV acc kv.1 kv.2) := rfl
    rw [hfold]
    exact ih (insKV acc kv.1 kv.2) (nodup_insKV acc kv.1 kv.2 h1)
      (wfObj_insKV acc kv.1 kv.2 h2 (hall kv (List.mem_cons_self kv kvs')))
      (fun q hq => hall q (List.mem_cons_of_mem kv hq))

/-- The closing tokens allowed after a value are safe after a number:
none of them can extend its digits, fraction or exponent. -/
theorem delimOk_numRest (rest : List Char) (h : delimOk rest) :
    ∀ c, rest.head? = some c → c.isDigit = false ∧ c ≠ '.' ∧ c ≠ 'e' ∧ c ≠ 'E' := by
  cases rest with
  | nil => intro c hc; cases hc
  | cons c0 cs =>
    intro c hc
    have hcc : c = c0 := by injection hc with hv; exact hv.symm
    subst hcc
    rcases h with h | h | h <;> (subst h; refine ⟨by decide, by decide, by decide, by decide⟩)

/-- A comma opens a valid value delimiter. -/
theorem delimOk_comma (l : List Char) : delimOk (',' :: l) := Or.inl rfl

/-- A closing bracket opens a valid value delimiter. -/
theorem delimOk_rbracket (l : List Char) : delimOk (']' :: l) := Or.inr (Or.inl rfl)

/-- A closing brace opens a valid value delimiter. -/
theorem delimOk_rbrace (l : List Char) : delimOk ('\x7d' :: l) := Or.inr (Or.inr rfl)

/-- Well-formedness of a float value, unpacked. -/
theorem wfB_jfloat (m e : Int) (h : wfB (JVal.jfloat m e) = true) :
    (m = 0 → e = 0) ∧ (m ≠ 0 → m.natAbs % 10 ≠ 0) := by
  unfold wfB at h
  by_cases hm : m = 0
  · rw [if_pos hm] at h
    exact ⟨fun _ => by simpa using h, fun hc => absurd hm hc⟩
  · rw [if_neg hm] at h
    refine ⟨fun hc => absurd hc hm, fun _ => ?_⟩
    simpa using h

/-- Well-formedness of an array value, unpacked. -/
theorem wfB_arr (xs : List JVal) (h : wfB (JVal.arr xs) = true) :
    ∀ x ∈ xs, wfB x = true := by
  have harr : wfArr xs = true := h
  clear h
  induction xs with
  | nil => intro x hx; cases hx
  | cons y ys ih =>
    have hsplit : (wfB y && wfArr ys) = true := harr
    rw [Bool.and_eq_true] at hsplit
    intro x hx
    rcases List.mem_cons.mp hx with hh | hh
    · rw [hh]; exact hsplit.1
    · exact ih hsplit.2 x hh

/-- Well-formedness of an object value, unpacked. -/
theorem wfB_obj (kvs : List (List Char × JVal)) (h : wfB (JVal.obj kvs) = true) :
    nodupKeys (kvs.map Prod.fst) = true ∧ ∀ kv ∈ kvs, wfB kv.2 = true := by
  have hobj : (nodupKeys (kvs.map Prod.fst) && wfObj kvs) = true := h
  rw [Bool.and_eq_true] at hobj
  refine ⟨hobj.1, ?_⟩
  have hw := hobj.2
  clear h hobj
  induction kvs with
  | nil => intro kv hkv; cases hkv
  | cons p t ih =>
    rw [wfObj_cons, Bool.and_eq_true] at hw
    intro kv hkv
    rcases List.mem_cons.mp hkv with hh | hh
    · rw [hh]; exact hw.1
    · exact ih hw.2 kv hh

/-- One step of `pVal` at an opening bracket. -/
theorem pVal_lbracket (f : Nat) (cs : List Char) :
    pVal (f + 1) ('[' :: cs) = pArr0 f (skipWs cs) := rfl

/-- One step of `pVal` at an opening brace. -/
theorem pVal_lbrace (f : Nat) (cs : List Char) :
    pVal (f + 1) ('\x7b' :: cs) = pObj0 f (skipWs cs) := rfl

/-- `pVal` falls through to the number parser at any other character. -/
theorem pVal_step_num (f : Nat) (c : Char) (cs : List Char)
    (h1 : c ≠ 'n') (h2 : c ≠ 't') (h3 : c ≠ 'f') (h4 : c ≠ '"') (h5 : c ≠ '[')
    (h6 : c ≠ '\x7b') :
    pVal (f + 1) (c :: cs) = pNum (c :: cs) := by
  show (if c = 'n' then _ else if c = 't' then _ else if c = 'f' then _
    else if c = '"' then _ else if c = '[' then _ else if c = '\x7b' then _
    else pNum (c :: cs)) = pNum (c :: cs)
  rw [if_neg h1, if_neg h2, if_neg h3, if_neg h4, if_neg h5, if_neg h6]

/-- One step of the array-element loop. -/
theorem pElems_succ (g : Nat) (s : List Char) :
    pElems (g + 1) s =
      (pVal g s).bind (fun p => pElemsTail g p.1 (skipWs p.2)) := rfl

/-- One step of the object-member loop. -/
theorem pMembers_quote (g : Nat) (r : List Char) :
    pMembers (g + 1) ('"' :: r) =
      (pStr r).bind (fun kp => pMemberColon g kp.1 (skipWs kp.2)) := rfl

/-- Every value needs at least one unit of fuel. -/
theorem fsize_pos (v : JVal) : 1 ≤ fsize v := by
  cases v <;> simp [fsize] <;> omega

/-- Fuel of an array node. -/
theorem fsize_arr (xs : List JVal) : fsize (JVal.arr xs) = 2 + fsizeArr xs := rfl

/-- Fuel of an object node. -/
theorem fsize_obj (kvs : List (List Char × JVal)) :
    fsize (JVal.obj kvs) = 2 + fsizeObj kvs := rfl

/-- Fuel of a nonempty element list. -/
theorem fsizeArr_cons (x : JVal) (xs : List JVal) :
    fsizeArr (x :: xs) = fsize x + 2 + fsizeArr xs := rfl

/-- Fuel of a nonempty member list. -/
theorem fsizeObj_cons (kv : List Char × JVal) (kvs : List (List Char × JVal)) :
    fsizeObj (kv :: kvs) = fsize kv.2 + 3 + fsizeObj kvs := rfl

/-- Whitespace skipping fixes any serialized fragment. -/
theorem skipWs_head_not_ws (l : List Char)
    (h : ∀ c, l.head? = some c → jsonWs c = false) : skipWs l = l := by
  cases l with
  | nil => rfl
  | cons c cs => exact skipWs_not_ws c cs (h c rfl)

/-- An immediate closing bracket after `[` gives the empty array. -/
theorem pArr0_rbracket (g : Nat) (r2 : List Char) :
    pArr0 (g + 1) (']' :: r2) = some (JVal.arr [], r2) := rfl

/-- Any other character after `[` starts a nonempty element list. -/
theorem pArr0_cons (g : Nat) (c : Char) (r2 : List Char) (h : c ≠ ']') :
    pArr0 (g + 1) (c :: r2) =
      (pElems g (c :: r2)).map (fun p => (JVal.arr p.1, p.2)) := by
  show (if c = ']' then some (JVal.arr [], r2)
    else (pElems g (c :: r2)).map (fun p => (JVal.arr p.1, p.2))) = _
  rw [if_neg h]

/-- An immediate closing brace after the opening brace gives the empty
object. -/
theorem pObj0_rbrace (g : Nat) (r2 : List Char) :
    pObj0 (g + 1) ('\x7d' :: r2) = some (JVal.obj [], r2) := rfl

/-- Any other character after the opening brace starts a nonempty member
list. -/
theorem pObj0_cons (g : Nat) (c : Char) (r2 : List Char) (h : c ≠ '\x7d') :
    pObj0 (g + 1) (c :: r2) =
      (pMembers g (c :: r2)).map (fun p =>
        (JVal.obj (p.1.foldl (fun acc kv => insKV acc kv.1 kv.2) []), p.2)) := by
  show (if c = '\x7d' then some (JVal.obj [], r2)
    else (pMembers g (c :: r2)).map (fun p =>
      (JVal.obj (p.1.foldl (fun acc kv => insKV acc kv.1 kv.2) []), p.2))) = _
  rw [if_neg h]

/-- A comma after an array element continues the element list. -/
theorem pElemsTail_comma (g : Nat) (v : JVal) (r2 : List Char) :
    pElemsTail (g + 1) v (',' :: r2) =
      (pElems g (skipWs r2)).bind (fun q => some (v :: q.1, q.2)) := rfl

/-- A closing bracket after an array element ends the element list. -/
theorem pElemsTail_rbracket (g : Nat) (v : JVal) (r2 : List Char) :
    pElemsTail (g + 1) v (']' :: r2) = some ([v], r2) := rfl

/-- A colon after a member key introduces the member value. -/
theorem pMemberColon_colon (g : Nat) (k : List Char) (r2 : List Char) :
    pMemberColon (g + 1) k (':' :: r2) =
      (pVal g (skipWs r2)).bind (fun vp => pMembersTail g k vp.1 (skipWs vp.2)) := rfl

/-- A comma after an object member continues the member list. -/
theorem pMembersTail_comma (g : Nat) (k : List Char) (v : JVal) (r4 : List Char) :
    pMembersTail (g + 1) k v (',' :: r4) =
      (pMembers g (skipWs r4)).bind (fun q => some ((k, v) :: q.1, q.2)) := rfl

/-- A closing brace after an object member ends the member list. -/
theorem pMembersTail_rbrace (g : Nat) (k : List Char) (v : JVal) (r4 : List Char) :
    pMembersTail (g + 1) k v ('\x7d' :: r4) = some ([(k, v)], r4) := rfl

/-- A serialized value never begins with whitespace. -/
theorem skipWs_dumpV_append (v : JVal) (rest : List Char) :
    skipWs (dumpV v ++ rest) = dumpV v ++ rest := by
  obtain ⟨c, cs, hshape, hws, _, _, _⟩ := dumpV_goodHead v
  rw [hshape, List.cons_append]
  exact skipWs_not_ws c (cs ++ rest) hws

/-- A serialized integer begins with a minus sign or a digit. -/
theorem dumpInt_head (n : Int) :
    ∃ c cs, dumpInt n = c :: cs ∧ (c = '-' ∨ c.isDigit = true) := by
  by_cases hn : n < 0
  · refine ⟨'-', natToChars n.natAbs, ?_, Or.inl rfl⟩
    unfold dumpInt
    rw [if_pos hn]
    rfl
  · obtain ⟨c0, cs0, hds⟩ := List.exists_cons_of_ne_nil (natToChars_ne_nil n.natAbs)
    have hc0 : c0.isDigit = true := natToChars_all_digits n.natAbs c0
      (by rw [hds]; exact List.mem_cons_self c0 cs0)
    refine ⟨c0, cs0, ?_, Or.inr hc0⟩
    unfold dumpInt
    rw [if_neg hn, hds]
    rfl

/-- A serialized float begins with a minus sign or a digit. -/
theorem dumpFloat_head (m e : Int) :
    ∃ c cs, dumpFloat m e = c :: cs ∧ (c = '-' ∨ c.isDigit = true) := by
  by_cases hneg : m < 0
  · unfold dumpFloat
    rw [if_pos hneg]
    by_cases he : 0 ≤ e
    · rw [if_pos he]
      exact ⟨'-', _, rfl, Or.inl rfl⟩
    · rw [if_neg he]
      by_cases hlen : (natToChars m.natAbs).length ≤ (-e).toNat
      · rw [if_pos hlen]
        exact ⟨'-', _, rfl, Or.inl rfl⟩
      · rw [if_neg hlen]
        exact ⟨'-', _, rfl, Or.inl rfl⟩
  · obtain ⟨c0, cs0, hds⟩ := List.exists_cons_of_ne_nil (natToChars_ne_nil m.natAbs)
    have hc0 : c0.isDigit = true := natToChars_all_digits m.natAbs c0
      (by rw [hds]; exact List.mem_cons_self c0 cs0)
    unfold dumpFloat
    rw [if_neg hneg]
    by_cases he : 0 ≤ e
    · rw [if_pos he, hds]
      exact ⟨c0, _, rfl, Or.inr hc0⟩
    · rw [if_neg he]
      by_cases hlen : (natToChars m.natAbs).length ≤ (-e).toNat
      · rw [if_pos hlen]
        exact ⟨'0', _, rfl, Or.inr (by decide)⟩
      · rw [if_neg hlen]
        push_neg at hlen
        have htk_pos : 0 < (natToChars m.natAbs).length - (-e).toNat := by omega
        have hhd : ((natToChars m.natAbs).take
            ((natToChars m.natAbs).length - (-e).toNat)).head? = some c0 := by
          rw [head?_take _ _ htk_pos, hds]
          rfl
        obtain ⟨c1, cs1, htk⟩ := List.exists_cons_of_ne_nil
          (l := (natToChars m.natAbs).take
            ((natToChars m.natAbs).length - (-e).toNat)) (by
          intro hcontra
          rw [hcontra] at hhd
          cases hhd)
        rw [htk] at hhd
        have hc1 : c1 = c0 := by injection hhd
        subst hc1
        rw [List.nil_append, htk]
        exact ⟨c1, _, rfl, Or.inr hc0⟩

/-- `pVal` reads a serialized `null`. -/
theorem pVal_dump_null (f : Nat) (rest : List Char) :
    pVal (f + 1) (dumpV JVal.null ++ rest) = some (JVal.null, rest) := rfl

/-- `pVal` reads a serialized `true`. -/
theorem pVal_dump_true (f : Nat) (rest : List Char) :
    pVal (f + 1) (dumpV (JVal.bool true) ++ rest) = some (JVal.bool true, rest) := rfl

/-- `pVal` reads a serialized `false`. -/
theorem pVal_dump_false (f : Nat) (rest : List Char) :
    pVal (f + 1) (dumpV (JVal.bool false) ++ rest) = some (JVal.bool false, rest) := rfl

/-- `pVal` reads a serialized string. -/
theorem pVal_dump_str (f : Nat) (s rest : List Char) :
    pVal (f + 1) (dumpV (JVal.str s) ++ rest) = some (JVal.str s, rest) := by
  show (pStr ((escStr s ++ ['"']) ++ rest)).map (fun p => (JVal.str p.1, p.2)) =
    some (JVal.str s, rest)
  have hsh : (escStr s ++ ['"']) ++ rest = escStr s ++ '"' :: rest := by
    rw [List.append_assoc]
    rfl
  rw [hsh, pStr_escStr]
  rfl

/-- `pVal` dispatches a serialized integer to the number parser. -/
theorem pVal_dumpInt (f : Nat) (n : Int) (rest : List Char) (hrest : delimOk rest) :
    pVal (f + 1) (dumpInt n ++ rest) = some (JVal.jint n, rest) := by
  obtain ⟨c, cs, hshape, hc⟩ := dumpInt_head n
  have hnum : pVal (f + 1) (dumpInt n ++ rest) = pNum (dumpInt n ++ rest) := by
    rw [hshape, List.cons_append]
    rcases hc with hc | hc
    · subst hc
      exact pVal_step_num f '-' _ (by decide) (by decide) (by decide) (by decide)
        (by decide) (by decide)
    · obtain ⟨_, _, _, _, h5, h6, h7, h8, h9, h10, _⟩ := isDigit_facts c hc
      exact pVal_step_num f c _ h5 h6 h7 h8 h9 h10
  rw [hnum, pNum_dumpInt n rest (delimOk_numRest rest hrest)]

/-- `pVal` dispatches a serialized normalised float to the number
parser. -/
theorem pVal_dumpFloat (f : Nat) (m e : Int) (rest : List Char)
    (hm0 : m = 0 → e = 0) (hm10 : m ≠ 0 → m.natAbs % 10 ≠ 0) (hrest : delimOk rest) :
    pVal (f + 1) (dumpFloat m e ++ rest) = some (JVal.jfloat m e, rest) := by
  obtain ⟨c, cs, hshape, hc⟩ := dumpFloat_head m e
  have hnum : pVal (f + 1) (dumpFloat m e ++ rest) = pNum (dumpFloat m e ++ rest) := by
    rw [hshape, List.cons_append]
    rcases hc with hc | hc
    · subst hc
      exact pVal_step_num f '-' _ (by decide) (by decide) (by decide) (by decide)
        (by decide) (by decide)
    · obtain ⟨_, _, _, _, h5, h6, h7, h8, h9, h10, _⟩ := isDigit_facts c hc
      exact pVal_step_num f c _ h5 h6 h7 h8 h9 h10
  rw [hnum, pNum_dumpFloat m e rest hm0 hm10 (delimOk_numRest rest hrest)]

/-- Element well-formedness is membership-wise well-formedness. -/
theorem wfArr_iff (xs : List JVal) : wfArr xs = true ↔ ∀ x ∈ xs, wfB x = true := by
  induction xs with
  | nil => exact ⟨fun _ x hx => absurd hx (List.not_mem_nil x), fun _ => rfl⟩
  | cons y ys ih =>
    constructor
    · intro h x hx
      have hsplit : (wfB y && wfArr ys) = true := h
      rw [Bool.and_eq_true] at hsplit
      rcases List.mem_cons.mp hx with hh | hh
      · rw [hh]; exact hsplit.1
      · exact ih.mp hsplit.2 x hh
    · intro h
      show (wfB y && wfArr ys) = true
      rw [Bool.and_eq_true]
      exact ⟨h y (List.mem_cons_self y ys),
        ih.mpr (fun x hx => h x (List.mem_cons_of_mem y hx))⟩

/-- Member-value well-formedness is membership-wise well-formedness. -/
theorem wfObj_iff (kvs : List (List Char × JVal)) :
    wfObj kvs = true ↔ ∀ kv ∈ kvs, wfB kv.2 = true := by
  induction kvs with
  | nil => exact ⟨fun _ kv hkv => absurd hkv (List.not_mem_nil kv), fun _ => rfl⟩
  | cons p t ih =>
    constructor
    · intro h kv hkv
      rw [wfObj_cons, Bool.and_eq_true] at h
      rcases List.mem_cons.mp hkv with hh | hh
      · rw [hh]; exact h.1
      · exact ih.mp h.2 kv hh
    · intro h
      rw [wfObj_cons, Bool.and_eq_true]
      exact ⟨h p (List.mem_cons_self p t),
        ih.mpr (fun kv hkv => h kv (List.mem_cons_of_mem p hkv))⟩

/-- The element loop reads back a serialized nonempty element list up to
and including the closing bracket, given that `pVal` reads back each
element. -/
theorem pElems_dump : ∀ (xs : List JVal) (x : JVal),
    (∀ y ∈ x :: xs, ∀ f rest, fsize y ≤ f → delimOk rest →
      pVal f (dumpV y ++ rest) = some (y, rest)) →
    ∀ g rest, fsizeArr (x :: xs) ≤ g →
      pElems g ((dumpV x ++ dumpElemsTail xs) ++ ']' :: rest) = some (x :: xs, rest) := by
  intro xs
  induction xs with
  | nil =>
    intro x hIH g rest hg
    rw [fsizeArr_cons, show fsizeArr [] = 0 from rfl] at hg
    have hxpos := fsize_pos x
    cases g with
    | zero => omega
    | succ h =>
      rw [pElems_succ]
      have hsh : (dumpV x ++ dumpElemsTail []) ++ ']' :: rest = dumpV x ++ ']' :: rest := by
        show (dumpV x ++ []) ++ ']' :: rest = _
        rw [List.append_nil]
      rw [hsh, hIH x (List.mem_cons_self x []) h (']' :: rest) (by omega)
        (delimOk_rbracket rest)]
      show pElemsTail h x (skipWs (']' :: rest)) = some ([x], rest)
      rw [skipWs_not_ws ']' rest (by decide)]
      cases h with
      | zero => omega
      | succ t => exact pElemsTail_rbracket t x rest
  | cons y ys ih =>
    intro x hIH g rest hg
    rw [fsizeArr_cons] at hg
    have hxpos := fsize_pos x
    have hypos := fsize_pos y
    have hys : fsizeArr (y :: ys) = fsize y + 2 + fsizeArr ys := fsizeArr_cons y ys
    cases g with
    | zero => omega
    | succ h =>
      rw [pElems_succ]
      have hsh : (dumpV x ++ dumpElemsTail (y :: ys)) ++ ']' :: rest =
          dumpV x ++ (',' :: ' ' :: ((dumpV y ++ dumpElemsTail ys) ++ ']' :: rest)) := by
        show (dumpV x ++ (',' :: ' ' :: (dumpV y ++ dumpElemsTail ys))) ++ ']' :: rest = _
        rw [List.append_assoc]
        rfl
      rw [hsh, hIH x (List.mem_cons_self x (y :: ys)) h _ (by omega) (delimOk_comma _)]
      show pElemsTail h x
        (skipWs (',' :: ' ' :: ((dumpV y ++ dumpElemsTail ys) ++ ']' :: rest))) =
        some (x :: y :: ys, rest)
      rw [skipWs_not_ws ',' _ (by decide)]
      cases h with
      | zero => omega
      | succ t =>
        rw [pElemsTail_comma]
        have hsk : skipWs (' ' :: ((dumpV y ++ dumpElemsTail ys) ++ ']' :: rest)) =
            (dumpV y ++ dumpElemsTail ys) ++ ']' :: rest := by
          rw [skipWs_space, List.append_assoc, skipWs_dumpV_append, ← List.append_assoc]
        rw [hsk, ih y (fun z hz => hIH z (List.mem_cons_of_mem x hz)) t rest (by omega)]
        rfl

/-- The member loop reads back a serialized nonempty member list up to
and including the closing brace, given that `pVal` reads back each
member value. -/
theorem pMembers_dump : ∀ (kvs : List (List Char × JVal)) (kv : List Char × JVal),
    (∀ q ∈ kv :: kvs, ∀ f rest, fsize q.2 ≤ f → delimOk rest →
      pVal f (dumpV q.2 ++ rest) = some (q.2, rest)) →
    ∀ g rest, fsizeObj (kv :: kvs) ≤ g →
      pMembers g ((dumpMember kv ++ dumpMembersTail kvs) ++ '\x7d' :: rest) =
        some (kv :: kvs, rest) := by
  intro kvs
  induction kvs with
  | nil =>
    intro kv hIH g rest hg
    obtain ⟨k, v⟩ := kv
    rw [fsizeObj_cons, show fsizeObj [] = 0 from rfl] at hg
    have hvpos := fsize_pos v
    cases g with
    | zero => omega
    | succ h =>
      have hsh : (dumpMember (k, v) ++ dumpMembersTail []) ++ '\x7d' :: rest =
          '"' :: (escStr k ++ '"' :: ':' :: ' ' :: (dumpV v ++ '\x7d' :: rest)) := by
        show (('"' :: (escStr k ++ ['"', ':', ' '] ++ dumpV v)) ++ []) ++ '\x7d' :: rest = _
        rw [List.append_nil, List.cons_append, List.append_assoc, List.append_assoc]
        rfl
      rw [hsh, pMembers_quote, pStr_escStr]
      show pMemberColon h k
        (skipWs (':' :: ' ' :: (dumpV v ++ '\x7d' :: rest))) = some ([(k, v)], rest)
      rw [skipWs_not_ws ':' _ (by decide)]
      cases h with
      | zero => omega
      | succ t =>
        rw [pMemberColon_colon]
        have hsk : skipWs (' ' :: (dumpV v ++ '\x7d' :: rest)) =
            dumpV v ++ '\x7d' :: rest := by
          rw [skipWs_space, skipWs_dumpV_append]
        rw [hsk, hIH (k, v) (List.mem_cons_self (k, v) []) t ('\x7d' :: rest) (by omega)
          (delimOk_rbrace rest)]
        show pMembersTail t k v (skipWs ('\x7d' :: rest)) = some ([(k, v)], rest)
        rw [skipWs_not_ws '\x7d' rest (by decide)]
        cases t with
        | zero => omega
        | succ u => exact pMembersTail_rbrace u k v rest
  | cons q qs ih =>
    intro kv hIH g rest hg
    obtain ⟨k, v⟩ := kv
    obtain ⟨k1, v1⟩ := q
    rw [fsizeObj_cons] at hg
    have hvpos := fsize_pos v
    have hv1pos := fsize_pos v1
    have hqs : fsizeObj ((k1, v1) :: qs) = fsize v1 + 3 + fsizeObj qs :=
      fsizeObj_cons (k1, v1) qs
    cases g with
    | zero => omega
    | succ h =>
      have hsh : (dumpMember (k, v) ++ dumpMembersTail ((k1, v1) :: qs)) ++ '\x7d' :: rest =
          '"' :: (escStr k ++ '"' :: ':' :: ' ' :: (dumpV v ++
            (',' :: ' ' :: ((dumpMember (k1, v1) ++ dumpMembersTail qs) ++
              '\x7d' :: rest)))) := by
        show (('"' :: (escStr k ++ ['"', ':', ' '] ++ dumpV v)) ++
          (',' :: ' ' :: (dumpMember (k1, v1) ++ dumpMembersTail qs))) ++ '\x7d' :: rest = _
        simp only [List.cons_append, List.nil_append, List.append_assoc]
      rw [hsh, pMembers_quote, pStr_escStr]
      show pMemberColon h k (skipWs (':' :: ' ' :: (dumpV v ++
        (',' :: ' ' :: ((dumpMember (k1, v1) ++ dumpMembersTail qs) ++ '\x7d' :: rest))))) =
        some ((k, v) :: (k1, v1) :: qs, rest)
      rw [skipWs_not_ws ':' _ (by decide)]
      cases h with
      | zero => omega
      | succ t =>
        rw [pMemberColon_colon]
        have hsk : skipWs (' ' :: (dumpV v ++
            (',' :: ' ' :: ((dumpMember (k1, v1) ++ dumpMembersTail qs) ++
              '\x7d' :: rest)))) =
            dumpV v ++ (',' :: ' ' :: ((dumpMember (k1, v1) ++ dumpMembersTail qs) ++
              '\x7d' :: rest)) := by
          rw [skipWs_space, skipWs_dumpV_append]
        rw [hsk, hIH (k, v) (List.mem_cons_self (k, v) _) t _ (by omega) (delimOk_comma _)]
        show pMembersTail t k v
          (skipWs (',' :: ' ' :: ((dumpMember (k1, v1) ++ dumpMembersTail qs) ++
            '\x7d' :: rest))) = some ((k, v) :: (k1, v1) :: qs, rest)
        rw [skipWs_not_ws ',' _ (by decide)]
        cases t with
        | zero => omega
        | succ u =>
          rw [pMembersTail_comma]
          have hsk2 : skipWs (' ' :: ((dumpMember (k1, v1) ++ dumpMembersTail qs) ++
              '\x7d' :: rest)) =
              (dumpMember (k1, v1) ++ dumpMembersTail qs) ++ '\x7d' :: rest := by
            rw [skipWs_space]
            show skipWs (('"' :: (escStr k1 ++ ['"', ':', ' '] ++ dumpV v1) ++
              dumpMembersTail qs) ++ '\x7d' :: rest) = _
            rw [List.cons_append, List.cons_append,
              skipWs_not_ws '"' _ (by decide)]
            rfl
          rw [hsk2, ih (k1, v1) (fun z hz => hIH z (List.mem_cons_of_mem (k, v) hz)) u rest
            (by omega)]
          rfl

/-- The serializer-parser round trip at the value level: `pVal` reads a
serialized well-formed value back, leaving exactly the trailing
fragment. -/
theorem pVal_dumpV_round (v : JVal) : wfB v = true → ∀ f rest, fsize v ≤ f →
    delimOk rest → pVal f (dumpV v ++ rest) = some (v, rest) := by
  refine JVal.myInd (fun v => wfB v = true → ∀ f rest, fsize v ≤ f →
    delimOk rest → pVal f (dumpV v ++ rest) = some (v, rest)) ?_ ?_ ?_ ?_ ?_ ?_ ?_ v
  · intro _ f rest hf _
    cases f with
    | zero => rw [show fsize JVal.null = 1 from rfl] at hf; omega
    | succ f1 => exact pVal_dump_null f1 rest
  · intro b _ f rest hf _
    cases f with
    | zero => rw [show fsize (JVal.bool b) = 1 from rfl] at hf; omega
    | succ f1 =>
      cases b with
      | true => exact pVal_dump_true f1 rest
      | false => exact pVal_dump_false f1 rest
  · intro n _ f rest hf hdel
    cases f with
    | zero => rw [show fsize (JVal.jint n) = 1 from rfl] at hf; omega
    | succ f1 => exact pVal_dumpInt f1 n rest hdel
  · intro m e hwf f rest hf hdel
    obtain ⟨hm0, hm10⟩ := wfB_jfloat m e hwf
    cases f with
    | zero => rw [show fsize (JVal.jfloat m e) = 1 from rfl] at hf; omega
    | succ f1 => exact pVal_dumpFloat f1 m e rest hm0 hm10 hdel
  · intro s _ f rest hf _
    cases f with
    | zero => rw [show fsize (JVal.str s) = 1 from rfl] at hf; omega
    | succ f1 => exact pVal_dump_str f1 s rest
  · intro xs ihm hwf f rest hf _
    cases xs with
    | nil =>
      rw [fsize_arr, show fsizeArr [] = 0 from rfl] at hf
      cases f with
      | zero => omega
      | succ f1 =>
        show pVal (f1 + 1) ('[' :: ']' :: rest) = some (JVal.arr [], rest)
        rw [pVal_lbracket, skipWs_not_ws ']' rest (by decide)]
        cases f1 with
        | zero => omega
        | succ f2 => exact pArr0_rbracket f2 rest
    | cons x zs =>
      have hall := wfB_arr _ hwf
      rw [fsize_arr, fsizeArr_cons] at hf
      have hxpos := fsize_pos x
      cases f with
      | zero => omega
      | succ f1 =>
        have hsh : dumpV (JVal.arr (x :: zs)) ++ rest =
            '[' :: ((dumpV x ++ dumpElemsTail zs) ++ ']' :: rest) := by
          show ('[' :: ((dumpV x ++ dumpElemsTail zs) ++ [']'])) ++ rest = _
          rw [List.cons_append, List.append_assoc]
          rfl
        rw [hsh, pVal_lbracket]
        have hsk : skipWs ((dumpV x ++ dumpElemsTail zs) ++ ']' :: rest) =
            (dumpV x ++ dumpElemsTail zs) ++ ']' :: rest := by
          rw [List.append_assoc, skipWs_dumpV_append, ← List.append_assoc]
        rw [hsk]
        cases f1 with
        | zero => omega
        | succ f2 =>
          obtain ⟨c, cs, hshape, hws, hrb, _, _⟩ := dumpV_goodHead x
          have hcons : (dumpV x ++ dumpElemsTail zs) ++ ']' :: rest =
              c :: ((cs ++ dumpElemsTail zs) ++ ']' :: rest) := by
            rw [hshape, List.cons_append, List.cons_append]
          rw [hcons, pArr0_cons f2 c _ hrb, ← hcons,
            pElems_dump zs x
              (fun y hy f3 r3 hf3 hd3 => ihm y hy (hall y hy) f3 r3 hf3 hd3)
              f2 rest (by rw [fsizeArr_cons]; omega)]
          rfl
  · intro kvs ihm hwf f rest hf _
    cases kvs with
    | nil =>
      rw [fsize_obj, show fsizeObj [] = 0 from rfl] at hf
      cases f with
      | zero => omega
      | succ f1 =>
        show pVal (f1 + 1) ('\x7b' :: '\x7d' :: rest) = some (JVal.obj [], rest)
        rw [pVal_lbrace, skipWs_not_ws '\x7d' rest (by decide)]
        cases f1 with
        | zero => omega
        | succ f2 => exact pObj0_rbrace f2 rest
    | cons kv kvt =>
      obtain ⟨hnd, hall⟩ := wfB_obj _ hwf
      obtain ⟨k, v0⟩ := kv
      rw [fsize_obj, fsizeObj_cons] at hf
      have hp2 : ((k, v0) : List Char × JVal).2 = v0 := rfl
      rw [hp2] at hf
      have hvpos := fsize_pos v0
      cases f with
      | zero => omega
      | succ f1 =>
        have hsh : dumpV (JVal.obj ((k, v0) :: kvt)) ++ rest =
            '\x7b' :: ((dumpMember (k, v0) ++ dumpMembersTail kvt) ++ '\x7d' :: rest) := by
          show ('\x7b' :: ((dumpMember (k, v0) ++ dumpMembersTail kvt) ++ ['\x7d'])) ++
            rest = _
          rw [List.cons_append, List.append_assoc]
          rfl
        rw [hsh, pVal_lbrace]
        have hsk : skipWs ((dumpMember (k, v0) ++ dumpMembersTail kvt) ++ '\x7d' :: rest) =
            (dumpMember (k, v0) ++ dumpMembersTail kvt) ++ '\x7d' :: rest := by
          show skipWs (('"' :: (escStr k ++ ['"', ':', ' '] ++ dumpV v0) ++
            dumpMembersTail kvt) ++ '\x7d' :: rest) = _
          rw [List.cons_append, List.cons_append, skipWs_not_ws '"' _ (by decide)]
          rfl
        rw [hsk]
        cases f1 with
        | zero => omega
        | succ f2 =>
          have hcons : (dumpMember (k, v0) ++ dumpMembersTail kvt) ++ '\x7d' :: rest =
              '"' :: (((escStr k ++ ['"', ':', ' '] ++ dumpV v0) ++ dumpMembersTail kvt) ++
                '\x7d' :: rest) := by
            show (('"' :: (escStr k ++ ['"', ':', ' '] ++ dumpV v0)) ++
              dumpMembersTail kvt) ++ '\x7d' :: rest = _
            rw [List.cons_append, List.cons_append]
          rw [hcons, pObj0_cons f2 '"' _ (by decide), ← hcons,
            pMembers_dump kvt (k, v0)
              (fun q hq f3 r3 hf3 hd3 => ihm q hq (hall q hq) f3 r3 hf3 hd3)
              f2 rest (by rw [fsizeObj_cons, hp2]; omega)]
          have hfold : ((k, v0) :: kvt).foldl (fun a q => insKV a q.1 q.2) [] =
              (k, v0) :: kvt := by
            have hh := foldl_insKV_nodup ((k, v0) :: kvt) []
            rw [List.nil_append] at hh
            exact hh ((nodupKeys_iff _).mp hnd)
          show some (JVal.obj (((k, v0) :: kvt).foldl (fun a q => insKV a q.1 q.2) []),
            rest) = _
          rw [hfold]

/-- The stem returned by `stripZeros`, unfolded. -/
theorem stripZeros_fst (ds : List Nat) :
    (stripZeros ds).1 = (ds.reverse.dropWhile (fun d => d = 0)).reverse := rfl

/-- The stem returned by `stripZeros` never ends in a zero digit. -/
theorem stripZeros_getLast_ne_zero (ds : List Nat) :
    ∀ d, (stripZeros ds).1.getLast? = some d → d ≠ 0 := by
  intro d hd
  rw [stripZeros_fst, List.getLast?_reverse] at hd
  have hne : ds.reverse.dropWhile (fun x => decide (x = 0)) ≠ [] := by
    intro hcon
    rw [hcon] at hd
    cases hd
  have hh := List.head_dropWhile_not (fun x => decide (x = 0)) ds.reverse hne
  have hhd : (ds.reverse.dropWhile (fun x => decide (x = 0))).head hne = d := by
    rw [List.head?_eq_head hne] at hd
    injection hd
  rw [hhd] at hh
  simpa using hh

/-- Every digit of the `stripZeros` stem is a digit of the input. -/
theorem stripZeros_mem (ds : List Nat) : ∀ d ∈ (stripZeros ds).1, d ∈ ds := by
  intro d hd
  rw [stripZeros_fst, List.mem_reverse] at hd
  exact List.mem_reverse.mp ((List.dropWhile_sublist (fun x => decide (x = 0))).subset hd)

/-- Building the well-formedness of a float from the two defining
facts. -/
theorem wfB_jfloat_intro (m e : Int) (hm : m ≠ 0) (h10 : m.natAbs % 10 ≠ 0) :
    wfB (JVal.jfloat m e) = true := by
  show (if m = 0 then e == 0 else m.natAbs % 10 != 0) = true
  rw [if_neg hm]
  simpa using h10

/-- A normalised decimal is always well formed when its digits are
decimal digits. -/
theorem normNum_wf (neg : Bool) (ds : List Nat) (e : Int)
    (hds : ∀ d ∈ ds, d < 10) : wfB (normNum neg ds e) = true := by
  unfold normNum
  by_cases hemp : (stripZeros ds).1 = []
  · simp only [hemp]
    simp [wfB]
  · simp only [if_neg hemp]
    obtain ⟨d, hd⟩ : ∃ d, (stripZeros ds).1.getLast? = some d :=
      ⟨_, List.getLast?_eq_getLast _ hemp⟩
    have hdne : d ≠ 0 := stripZeros_getLast_ne_zero ds d hd
    have hdmem : d ∈ (stripZeros ds).1 := by
      rw [List.getLast?_eq_getLast _ hemp] at hd
      injection hd with h9
      rw [← h9]
      exact List.getLast_mem hemp
    have hdlt : d < 10 := hds d (stripZeros_mem ds d hdmem)
    have hsplit : (stripZeros ds).1.dropLast ++ [d] = (stripZeros ds).1 :=
      List.dropLast_append_getLast? d hd
    have hmod : hornerN (stripZeros ds).1 % 10 = d := by
      conv_lhs => rw [← hsplit]
      rw [hornerN_concat_mod]
      omega
    have hh0 : hornerN (stripZeros ds).1 ≠ 0 := by
      intro hc
      rw [hc] at hmod
      simp at hmod
      omega
    have hm0 : intOfSign neg (hornerN (stripZeros ds).1) ≠ 0 := by
      cases neg <;> simp [intOfSign] <;> omega
    have hna : (intOfSign neg (hornerN (stripZeros ds).1)).natAbs =
        hornerN (stripZeros ds).1 := by
      cases neg <;> simp [intOfSign]
    refine wfB_jfloat_intro _ _ hm0 ?_
    rw [hna, hmod]
    exact hdne

/-- Every character of a successfully parsed fraction part is a
digit. -/
theorem pFracPart_digits (s fds r : List Char)
    (h : pFracPart s = some (some fds, r)) : ∀ c ∈ fds, c.isDigit = true := by
  cases s with
  | nil => simp [pFracPart] at h
  | cons c0 rr =>
    by_cases hc : c0 = '.'
    · subst hc
      have h2 : (if rr.takeWhile Char.isDigit = [] then none
          else some (some (rr.takeWhile Char.isDigit), rr.dropWhile Char.isDigit)) =
          some (some fds, r) := h
      by_cases hemp : rr.takeWhile Char.isDigit = []
      · rw [if_pos hemp] at h2
        cases h2
      · rw [if_neg hemp] at h2
        injection h2 with h3
        have h4 : some (rr.takeWhile Char.isDigit) = some fds := congrArg Prod.fst h3
        injection h4 with h5
        intro c hcm
        rw [← h5] at hcm
        exact List.mem_takeWhile_imp hcm
    · rw [pFracPart_no_dot (c0 :: rr) (fun c hcc => by
        injection hcc with h9
        rw [← h9]
        exact hc)] at h
      injection h with h3
      exact Option.noConfusion (congrArg Prod.fst h3)

/-- Every value the number parser returns is well formed: an integer,
or a normalised decimal built from decimal digits. -/
theorem pNum_wf (s : List Char) (v : JVal) (r : List Char)
    (h : pNum s = some (v, r)) : wfB v = true := by
  unfold pNum at h
  generalize (match s with
    | c :: r => if c = '-' then (true, r) else (false, s)
    | [] => (false, [])) = q0 at h
  simp only [] at h
  split at h
  · cases h
  · split at h
    · cases h
    · simp only [Option.bind_eq_bind', Option.bind_eq_some] at h
      obtain ⟨⟨fr1, fr2⟩, hfr, ⟨ex1, ex2⟩, hex, hm⟩ := h
      have hids : ∀ c ∈ List.takeWhile Char.isDigit q0.2, c.isDigit = true :=
        fun c hc => List.mem_takeWhile_imp hc
      cases fr1 with
      | none =>
        cases ex1 with
        | none =>
          simp at hm
          obtain ⟨hv, -⟩ := hm
          rw [← hv]
          rfl
        | some E =>
          simp at hm
          obtain ⟨hv, -⟩ := hm
          rw [← hv]
          refine normNum_wf _ _ _ ?_
          intro d hd
          rw [List.mem_map] at hd
          obtain ⟨c, hc, rfl⟩ := hd
          exact charVal_lt_of_isDigit c (hids c hc)
      | some fds0 =>
        have hfd := pFracPart_digits _ fds0 fr2 hfr
        cases ex1 with
        | none =>
          simp at hm
          obtain ⟨hv, -⟩ := hm
          rw [← hv]
          refine normNum_wf _ _ _ ?_
          intro d hd
          rcases List.mem_append.mp hd with hd2 | hd2 <;> rw [List.mem_map] at hd2
          · obtain ⟨c, hc, rfl⟩ := hd2
            exact charVal_lt_of_isDigit c (hids c hc)
          · obtain ⟨c, hc, rfl⟩ := hd2
            exact charVal_lt_of_isDigit c (hfd c hc)
        | some E =>
          simp at hm
          obtain ⟨hv, -⟩ := hm
          rw [← hv]
          refine normNum_wf _ _ _ ?_
          intro d hd
          rcases List.mem_append.mp hd with hd2 | hd2 <;> rw [List.mem_map] at hd2
          · obtain ⟨c, hc, rfl⟩ := hd2
            exact charVal_lt_of_isDigit c (hids c hc)
          · obtain ⟨c, hc, rfl⟩ := hd2
            exact charVal_lt_of_isDigit c (hfd c hc)

/-- Every value any of the mutual parsing functions returns is well
formed, proved by induction on the fuel: floats are normalised and
object key lists are duplicate-free. -/
theorem parse_wf : ∀ f : Nat,
    (∀ s v r, pVal f s = some (v, r) → wfB v = true) ∧
    (∀ s v r, pArr0 f s = some (v, r) → wfB v = true) ∧
    (∀ s v r, pObj0 f s = some (v, r) → wfB v = true) ∧
    (∀ s l r, pElems f s = some (l, r) → ∀ x ∈ l, wfB x = true) ∧
    (∀ w s l r, pElemsTail f w s = some (l, r) → wfB w = true →
      ∀ x ∈ l, wfB x = true) ∧
    (∀ s l r, pMembers f s = some (l, r) → ∀ kv ∈ l, wfB kv.2 = true) ∧
    (∀ k s l r, pMemberColon f k s = some (l, r) → ∀ kv ∈ l, wfB kv.2 = true) ∧
    (∀ k w s l r, pMembersTail f k w s = some (l, r) → wfB w = true →
      ∀ kv ∈ l, wfB kv.2 = true) := by
  intro f
  induction f with
  | zero =>
    refine ⟨fun s v r h => Option.noConfusion h, fun s v r h => Option.noConfusion h,
      fun s v r h => Option.noConfusion h, fun s l r h => Option.noConfusion h,
      fun w s l r h => Option.noConfusion h, fun s l r h => Option.noConfusion h,
      fun k s l r h => Option.noConfusion h,
      fun k w s l r h => Option.noConfusion h⟩
  | succ f ih =>
    obtain ⟨ihV, ihA, ihO, ihE, ihET, ihM, ihMC, ihMT⟩ := ih
    refine ⟨?_, ?_, ?_, ?_, ?_, ?_, ?_, ?_⟩
    · intro s v r h
      cases s with
      | nil => exact Option.noConfusion h
      | cons c cs =>
        unfold pVal at h
        split_ifs at h with h1 h2 h3 h4 h5 h6
        · split at h
          · cases h
            rfl
          · exact Option.noConfusion h
        · split at h
          · cases h
            rfl
          · exact Option.noConfusion h
        · split at h
          · cases h
            rfl
          · exact Option.noConfusion h
        · rcases hps : pStr cs with _ | p
          · rw [hps] at h
            exact Option.noConfusion h
          · rw [hps] at h
            cases h
            rfl
        · exact ihA _ _ _ h
        · exact ihO _ _ _ h
        · exact pNum_wf _ _ _ h
    · intro s v r h
      cases s with
      | nil =>
        rcases hpe : pElems f [] with _ | ⟨l2, r3⟩
        · rw [show pArr0 (f + 1) [] =
            (pElems f []).map (fun p => (JVal.arr p.1, p.2)) from rfl, hpe] at h
          exact Option.noConfusion h
        · rw [show pArr0 (f + 1) [] =
            (pElems f []).map (fun p => (JVal.arr p.1, p.2)) from rfl, hpe] at h
          cases h
          show wfArr l2 = true
          rw [wfArr_iff]
          exact ihE _ _ _ hpe
      | cons c r2 =>
        unfold pArr0 at h
        split_ifs at h with h1
        · cases h
          rfl
        · rcases hpe : pElems f (c :: r2) with _ | ⟨l2, r3⟩
          · rw [hpe] at h
            exact Option.noConfusion h
          · rw [hpe] at h
            cases h
            show wfArr l2 = true
            rw [wfArr_iff]
            exact ihE _ _ _ hpe
    · intro s v r h
      cases s with
      | nil =>
        rcases hpm : pMembers f [] with _ | ⟨l2, r3⟩
        · rw [show pObj0 (f + 1) [] = (pMembers f []).map (fun p =>
            (JVal.obj (p.1.foldl (fun acc kv => insKV acc kv.1 kv.2) []), p.2))
            from rfl, hpm] at h
          exact Option.noConfusion h
        · rw [show pObj0 (f + 1) [] = (pMembers f []).map (fun p =>
            (JVal.obj (p.1.foldl (fun acc kv => insKV acc kv.1 kv.2) []), p.2))
            from rfl, hpm] at h
          cases h
          have hwf := foldl_insKV_wf l2 [] (by simp) rfl (ihM _ _ _ hpm)
          show (nodupKeys ((l2.foldl (fun acc kv => insKV acc kv.1 kv.2) []).map
            Prod.fst) && wfObj (l2.foldl (fun acc kv => insKV acc kv.1 kv.2) [])) = true
          rw [Bool.and_eq_true, nodupKeys_iff]
          exact ⟨hwf.1, hwf.2⟩
      | cons c r2 =>
        unfold pObj0 at h
        split_ifs at h with h1
        · cases h
          rfl
        · rcases hpm : pMembers f (c :: r2) with _ | ⟨l2, r3⟩
          · rw [hpm] at h
            exact Option.noConfusion h
          · rw [hpm] at h
            cases h
            have hwf := foldl_insKV_wf l2 [] (by simp) rfl (ihM _ _ _ hpm)
            show (nodupKeys ((l2.foldl (fun acc kv => insKV acc kv.1 kv.2) []).map
              Prod.fst) && wfObj (l2.foldl (fun acc kv => insKV acc kv.1 kv.2) [])) = true
            rw [Bool.and_eq_true, nodupKeys_iff]
            exact ⟨hwf.1, hwf.2⟩
    · intro s l r h
      rw [pElems_succ] at h
      rcases hpv : pVal f s with _ | ⟨v0, r0⟩
      · rw [hpv] at h
        exact Option.noConfusion h
      · rw [hpv] at h
        change pElemsTail f v0 (skipWs r0) = some (l, r) at h
        exact ihET v0 _ _ _ h (ihV _ _ _ hpv)
    · intro w s l r h hw
      cases s with
      | nil => exact Option.noConfusion h
      | cons c r2 =>
        unfold pElemsTail at h
        split_ifs at h with h1 h2
        · rcases hpe : pElems f (skipWs r2) with _ | ⟨l2, r3⟩
          · rw [hpe] at h
            exact Option.noConfusion h
          · rw [hpe] at h
            change some (w :: l2, r3) = some (l, r) at h
            cases h
            intro x hx
            rcases List.mem_cons.mp hx with hh | hh
            · rw [hh]
              exact hw
            · exact ihE _ _ _ hpe x hh
        · cases h
          intro x hx
          rcases List.mem_cons.mp hx with hh | hh
          · rw [hh]
            exact hw
          · exact absurd hh (List.not_mem_nil x)
    · intro s l r h
      cases s with
      | nil => exact Option.noConfusion h
      | cons c r2 =>
        unfold pMembers at h
        split_ifs at h with h1
        · rcases hps : pStr r2 with _ | ⟨k0, r3⟩
          · rw [hps] at h
            exact Option.noConfusion h
          · rw [hps] at h
            change pMemberColon f k0 (skipWs r3) = some (l, r) at h
            exact ihMC k0 _ _ _ h
    · intro k s l r h
      cases s with
      | nil => exact Option.noConfusion h
      | cons c r2 =>
        unfold pMemberColon at h
        split_ifs at h with h1
        · rcases hpv : pVal f (skipWs r2) with _ | ⟨v0, r0⟩
          · rw [hpv] at h
            exact Option.noConfusion h
          · rw [hpv] at h
            change pMembersTail f k v0 (skipWs r0) = some (l, r) at h
            exact ihMT k v0 _ _ _ h (ihV _ _ _ hpv)
    · intro k w s l r h hw
      cases s with
      | nil => exact Option.noConfusion h
      | cons c r2 =>
        unfold pMembersTail at h
        split_ifs at h with h1 h2
        · rcases hpm : pMembers f (skipWs r2) with _ | ⟨l2, r3⟩
          · rw [hpm] at h
            exact Option.noConfusion h
          · rw [hpm] at h
            change some ((k, w) :: l2, r3) = some (l, r) at h
            cases h
            intro kv hkv
            rcases List.mem_cons.mp hkv with hh | hh
            · rw [hh]
              exact hw
            · exact ihM _ _ _ hpm kv hh
        · cases h
          intro kv hkv
          rcases List.mem_cons.mp hkv with hh | hh
          · rw [hh]
            exact hw
          · exact absurd hh (List.not_mem_nil kv)

/-- The fuel a value needs is at most twice its serialized length. -/
theorem fsize_le_dump (v : JVal) : fsize v ≤ 2 * (dumpV v).length := by
  refine JVal.myInd (fun v => fsize v ≤ 2 * (dumpV v).length) ?_ ?_ ?_ ?_ ?_ ?_ ?_ v
  · decide
  · intro b
    cases b <;> decide
  · intro n
    obtain ⟨c, cs, hsh, -⟩ := dumpInt_head n
    show fsize (JVal.jint n) ≤ 2 * (dumpInt n).length
    rw [show fsize (JVal.jint n) = 1 from rfl, hsh]
    simp only [List.length_cons]
    omega
  · intro m e
    obtain ⟨c, cs, hsh, -⟩ := dumpFloat_head m e
    show fsize (JVal.jfloat m e) ≤ 2 * (dumpFloat m e).length
    rw [show fsize (JVal.jfloat m e) = 1 from rfl, hsh]
    simp only [List.length_cons]
    omega
  · intro s
    show fsize (JVal.str s) ≤ 2 * ('"' :: (escStr s ++ ['"'])).length
    rw [show fsize (JVal.str s) = 1 from rfl]
    simp only [List.length_cons, List.length_append, List.length_singleton]
    omega
  · intro xs ihm
    have harr : ∀ (ys : List JVal), (∀ y ∈ ys, fsize y ≤ 2 * (dumpV y).length) →
        fsizeArr ys ≤ 2 * (dumpElemsTail ys).length := by
      intro ys
      induction ys with
      | nil => intro _; simp [fsizeArr, dumpElemsTail]
      | cons y ys2 ih2 =>
        intro hmem
        rw [fsizeArr_cons, show dumpElemsTail (y :: ys2) =
          ',' :: ' ' :: (dumpV y ++ dumpElemsTail ys2) from rfl]
        have h1 := hmem y (List.mem_cons_self y ys2)
        have h2 := ih2 (fun z hz => hmem z (List.mem_cons_of_mem y hz))
        simp only [List.length_cons, List.length_append]
        omega
    cases xs with
    | nil => decide
    | cons x zs =>
      have hx := ihm x (List.mem_cons_self x zs)
      have hz := harr zs (fun z hz => ihm z (List.mem_cons_of_mem x hz))
      rw [fsize_arr, fsizeArr_cons, show dumpV (JVal.arr (x :: zs)) =
        '[' :: (dumpV x ++ dumpElemsTail zs ++ [']']) from rfl]
      simp only [List.length_cons, List.length_append, List.length_singleton]
      omega
  · intro kvs ihm
    have hobj : ∀ (qs : List (List Char × JVal)),
        (∀ q ∈ qs, fsize q.2 ≤ 2 * (dumpV q.2).length) →
        fsizeObj qs ≤ 2 * (dumpMembersTail qs).length := by
      intro qs
      induction qs with
      | nil => intro _; simp [fsizeObj, dumpMembersTail]
      | cons q qs2 ih2 =>
        intro hmem
        obtain ⟨k1, v1⟩ := q
        have h1 : fsize v1 ≤ 2 * (dumpV v1).length :=
          hmem (k1, v1) (List.mem_cons_self (k1, v1) qs2)
        have h2 := ih2 (fun z hz => hmem z (List.mem_cons_of_mem (k1, v1) hz))
        rw [fsizeObj_cons, show dumpMembersTail ((k1, v1) :: qs2) =
          ',' :: ' ' :: (dumpMember (k1, v1) ++ dumpMembersTail qs2) from rfl,
          show dumpMember (k1, v1) = '"' :: (escStr k1 ++ ['"', ':', ' '] ++ dumpV v1)
            from rfl]
        simp only [List.length_cons, List.length_append, Prod.snd]
        omega
    cases kvs with
    | nil => decide
    | cons kv kvt =>
      obtain ⟨k, v0⟩ := kv
      have hx : fsize v0 ≤ 2 * (dumpV v0).length :=
        ihm (k, v0) (List.mem_cons_self (k, v0) kvt)
      have hz := hobj kvt (fun z hz => ihm z (List.mem_cons_of_mem (k, v0) hz))
      rw [fsize_obj, fsizeObj_cons, show dumpV (JVal.obj ((k, v0) :: kvt)) =
        '\x7b' :: (dumpMember (k, v0) ++ dumpMembersTail kvt ++ ['\x7d']) from rfl,
        show dumpMember (k, v0) = '"' :: (escStr k ++ ['"', ':', ' '] ++ dumpV v0)
          from rfl]
      simp only [List.length_cons, List.length_append, List.length_singleton, Prod.snd]
      omega

/-- Every value `json.loads` yields is well formed. -/
theorem loads_wf (s : List Char) (v : JVal) (h : loads s = some v) : wfB v = true := by
  unfold loads at h
  rcases hpv : pVal (4 * s.length + 4) (skipWs s) with _ | p
  · rw [hpv] at h
    exact Option.noConfusion h
  · rw [hpv] at h
    change (if skipWs p.2 = [] then some p.1 else none) = some v at h
    split_ifs at h with h1
    injection h with h2
    rw [← h2]
    exact (parse_wf (4 * s.length + 4)).1 _ _ _ hpv

/-- `json.loads` reads back what `json.dumps` wrote, for every
well-formed value. -/
theorem loads_dumpV (v : JVal) (h : wfB v = true) : loads (dumpV v) = some v := by
  unfold loads
  have hsk : skipWs (dumpV v) = dumpV v := by
    have hh := skipWs_dumpV_append v []
    rwa [List.append_nil] at hh
  rw [hsk]
  have hfu : fsize v ≤ 4 * (dumpV v).length + 4 := by
    have := fsize_le_dump v
    omega
  have hpv : pVal (4 * (dumpV v).length + 4) (dumpV v ++ []) = some (v, []) :=
    pVal_dumpV_round v h _ [] hfu trivial
  rw [List.append_nil] at hpv
  rw [hpv]
  rfl

/-- C8: parsing is round-trip stable.  The parse step has no schema
parameter (no key-set validation exists in the code), so for every
response text on which it succeeds with value `v`, serializing `v` back
to JSON text with `json.dumps` and parsing again succeeds with the same
value: `parse(json.dumps(parse(r))) = parse(r)`. -/
theorem c8_parse_roundtrip (r : List Char) (v : JVal)
    (h : parseModelText r = Except.ok v) :
    parseModelText (dumpV v) = Except.ok v := by
  have hl : loads r = some v := by
    unfold parseModelText at h
    rcases hl2 : loads r with _ | v2
    · rw [hl2] at h
      exact Except.noConfusion h
    · rw [hl2] at h
      injection h with h2
      exact congrArg some h2
  have hw := loads_wf r v hl
  unfold parseModelText
  rw [loads_dumpV v hw]

/-- C8 witness: a response mixing an object, an array, an integer, a
decimal and a null, parsed successfully and re-parsed from its
serialization. -/
theorem c8_witness :
    parseModelText (strL "\x7b\"total\": [1, 2.5], \"note\": null\x7d") =
      Except.ok (JVal.obj [(strL "total", JVal.arr [JVal.jint 1, JVal.jfloat 25 (-1)]),
        (strL "note", JVal.null)]) ∧
    parseModelText (dumpV (JVal.obj
      [(strL "total", JVal.arr [JVal.jint 1, JVal.jfloat 25 (-1)]),
        (strL "note", JVal.null)])) =
      Except.ok (JVal.obj [(strL "total", JVal.arr [JVal.jint 1, JVal.jfloat 25 (-1)]),
        (strL "note", JVal.null)]) :=
  ⟨rfl, c8_parse_roundtrip (strL "\x7b\"total\": [1, 2.5], \"note\": null\x7d")
    (JVal.obj [(strL "total", JVal.arr [JVal.jint 1, JVal.jfloat 25 (-1)]),
      (strL "note", JVal.null)]) rfl⟩
